import Mathlib

/-!
Verification of the syntax validator, bytecode-compilation fragments, tuple
value operations and bytecode profiler of a Starlark implementation.

The definitions below are a shallow embedding of the Rust sources:

* `syntax/validate.rs` — `Expr::check_call`, `Stmt::check_def`,
  `test_param_name`, `Stmt::validate_break_continue`;
* `eval/bc/compiler/def.rs` — `DefCompiled::write_bc`;
* `eval/runtime/bc_profile.rs` — `BcProfileData`, `BcPairsProfileData`,
  `BcProfile`;
* `values/types/tuple.rs` — `TupleGen::{equals, get_hash, mul}`.

AST expressions that the validator never inspects are modelled as opaque
`Nat` payloads; source spans are dropped (errors keep only their kind).
-/

/-- Model of AST expression payloads: the validator and the def compiler
never inspect the expression itself, only thread it through, so an
expression is identified by an opaque id. -/
abbrev AstExprM : Type := Nat

/-- `Parameter` (syntax/ast.rs): the five kinds of formal parameter.
Type-annotation payloads (`Option<AstTypeExpr>`) are carried but never
inspected by the validator (`..` patterns in `check_def`). -/
inductive ParameterM : Type where
  | normal (n : String) (ty : Option AstExprM)
  | withDefaultValue (n : String) (ty : Option AstExprM) (e : AstExprM)
  | noArgs
  | argsList (n : String) (ty : Option AstExprM)
  | kwargsDict (n : String) (ty : Option AstExprM)
  deriving DecidableEq, Repr

/-- `ArgumentUseOrderError` (syntax/validate.rs): parameter-list diagnostics. -/
inductive ArgumentUseOrderError : Type where
  | duplicateParameterName
  | positionalThenNonPositional
  | defaultParameterAfterStars
  | argsParameterAfterStars
  | multipleKwargs
  deriving DecidableEq, Repr

/-- The mutable state of the `check_def` loop: the set of names already
bound (modelled as a list) and the three `seen_*` flags. -/
structure DefState : Type where
  argset : List String
  seen_args : Bool
  seen_kwargs : Bool
  seen_optional : Bool
  deriving DecidableEq, Repr

/-- `test_param_name` (syntax/validate.rs): fail on a repeated name,
otherwise record the name in the set. -/
def testParamName (argset : List String) (n : String) :
    Except ArgumentUseOrderError (List String) :=
  if n ∈ argset then .error .duplicateParameterName
  else .ok (n :: argset)

/-- One iteration of the `check_def` parameter loop
(syntax/validate.rs, `Stmt::check_def`): the ordering check of the
matched arm runs first, then `test_param_name` for name-binding kinds. -/
def checkDefStep (st : DefState) (p : ParameterM) :
    Except ArgumentUseOrderError DefState :=
  match p with
  | .normal n _ =>
      if st.seen_kwargs || st.seen_optional then
        .error .positionalThenNonPositional
      else
        (testParamName st.argset n).map fun argset =>
          { st with argset := argset }
  | .withDefaultValue n _ _ =>
      if st.seen_kwargs then .error .defaultParameterAfterStars
      else
        (testParamName st.argset n).map fun argset =>
          { st with argset := argset, seen_optional := true }
  | .noArgs =>
      if st.seen_args || st.seen_kwargs then .error .argsParameterAfterStars
      else .ok { st with seen_args := true }
  | .argsList n _ =>
      if st.seen_args || st.seen_kwargs then .error .argsParameterAfterStars
      else
        (testParamName st.argset n).map fun argset =>
          { st with argset := argset, seen_args := true }
  | .kwargsDict n _ =>
      if st.seen_kwargs then .error .multipleKwargs
      else
        (testParamName st.argset n).map fun argset =>
          { st with argset := argset, seen_kwargs := true }

/-- The `check_def` parameter loop, threading `DefState` left to right;
the `?` propagation of the source is the error branch of the match. -/
def checkDefLoop (st : DefState) : List ParameterM →
    Except ArgumentUseOrderError Unit
  | [] => .ok ()
  | p :: ps =>
      match checkDefStep st p with
      | .error e => .error e
      | .ok st2 => checkDefLoop st2 ps

/-- `Stmt::check_def` (syntax/validate.rs), restricted to the value the
claims observe: on success the parameter list is returned unchanged (the
source builds `Stmt::Def(name, parameters, return_type, stmts)` from the
untouched inputs). -/
def checkDef (parameters : List ParameterM) :
    Except ArgumentUseOrderError (List ParameterM) :=
  match checkDefLoop ⟨[], false, false, false⟩ parameters with
  | .error e => .error e
  | .ok _ => .ok parameters

/-- The name bound by a parameter, if any (`NoArgs` binds none). -/
def bindsName : ParameterM → Option String
  | .normal n _ => some n
  | .withDefaultValue n _ _ => some n
  | .noArgs => none
  | .argsList n _ => some n
  | .kwargsDict n _ => some n

/-- All names bound by a parameter list, in order. -/
def boundNames (ps : List ParameterM) : List String := ps.filterMap bindsName

/-- Kind test: `Normal`. -/
def isNormalParam : ParameterM → Bool
  | .normal _ _ => true
  | _ => false

/-- Kind test: `WithDefaultValue`. -/
def isDefaultParam : ParameterM → Bool
  | .withDefaultValue _ _ _ => true
  | _ => false

/-- Kind test: `NoArgs`. -/
def isNoArgsParam : ParameterM → Bool
  | .noArgs => true
  | _ => false

/-- Kind test: `Args`. -/
def isArgsParam : ParameterM → Bool
  | .argsList _ _ => true
  | _ => false

/-- Kind test: `NoArgs` or `Args` (the kinds that set `seen_args`). -/
def isStarParam : ParameterM → Bool
  | .noArgs => true
  | .argsList _ _ => true
  | _ => false

/-- Kind test: `KWArgs`. -/
def isKwargsParam : ParameterM → Bool
  | .kwargsDict _ _ => true
  | _ => false

/-- Ordering constraint between an earlier parameter `a` and a later
parameter `b` that `check_def` actually enforces: nothing may follow a
`KWArgs`, a `Normal` may not follow a `WithDefaultValue`, and a
`NoArgs`/`Args` may not follow a `NoArgs`/`Args`. -/
def defOrderRel (a b : ParameterM) : Bool :=
  !isKwargsParam a &&
  (!isDefaultParam a || !isNormalParam b) &&
  (!isStarParam a || !isStarParam b)

/-- Acceptance condition `check_def` implements: bound names pairwise
distinct and `defOrderRel` holds for every ordered pair of parameters. -/
def checkDefAccepts (ps : List ParameterM) : Prop :=
  (boundNames ps).Nodup ∧ ps.Pairwise (fun a b => defOrderRel a b = true)

instance (ps : List ParameterM) : Decidable (checkDefAccepts ps) := by
  unfold checkDefAccepts; infer_instance

/-- The stage a parameter kind occupies in the grammar claimed by the
spec: `Normal* WithDefaultValue* NoArgs? Args? KWArgs?`. -/
def specParamStage : ParameterM → Nat
  | .normal _ _ => 0
  | .withDefaultValue _ _ _ => 1
  | .noArgs => 2
  | .argsList _ _ => 3
  | .kwargsDict _ _ => 4

/-- Acceptance condition as the spec words it (written from the spec, for
comparison with `checkDef`): bound names pairwise distinct, stages
non-decreasing, and each of `NoArgs`, `Args`, `KWArgs` at most once. -/
def specCheckDefAccepts (ps : List ParameterM) : Prop :=
  (boundNames ps).Nodup ∧
  ps.Pairwise (fun a b => specParamStage a ≤ specParamStage b) ∧
  ps.countP isNoArgsParam ≤ 1 ∧
  ps.countP isArgsParam ≤ 1 ∧
  ps.countP isKwargsParam ≤ 1

instance (ps : List ParameterM) : Decidable (specCheckDefAccepts ps) := by
  unfold specCheckDefAccepts; infer_instance

section KindSimp
variable (n : String) (ty : Option AstExprM) (e : AstExprM)

@[simp] lemma isNormalParam_normal : isNormalParam (.normal n ty) = true := rfl
@[simp] lemma isNormalParam_default : isNormalParam (.withDefaultValue n ty e) = false := rfl
@[simp] lemma isNormalParam_noArgs : isNormalParam .noArgs = false := rfl
@[simp] lemma isNormalParam_args : isNormalParam (.argsList n ty) = false := rfl
@[simp] lemma isNormalParam_kwargs : isNormalParam (.kwargsDict n ty) = false := rfl

@[simp] lemma isStarParam_normal : isStarParam (.normal n ty) = false := rfl
@[simp] lemma isStarParam_default : isStarParam (.withDefaultValue n ty e) = false := rfl
@[simp] lemma isStarParam_noArgs : isStarParam .noArgs = true := rfl
@[simp] lemma isStarParam_args : isStarParam (.argsList n ty) = true := rfl
@[simp] lemma isStarParam_kwargs : isStarParam (.kwargsDict n ty) = false := rfl

@[simp] lemma isKwargsParam_normal : isKwargsParam (.normal n ty) = false := rfl
@[simp] lemma isKwargsParam_default : isKwargsParam (.withDefaultValue n ty e) = false := rfl
@[simp] lemma isKwargsParam_noArgs : isKwargsParam .noArgs = false := rfl
@[simp] lemma isKwargsParam_args : isKwargsParam (.argsList n ty) = false := rfl
@[simp] lemma isKwargsParam_kwargs : isKwargsParam (.kwargsDict n ty) = true := rfl

@[simp] lemma isDefaultParam_normal : isDefaultParam (.normal n ty) = false := rfl
@[simp] lemma isDefaultParam_default : isDefaultParam (.withDefaultValue n ty e) = true := rfl
@[simp] lemma isDefaultParam_noArgs : isDefaultParam .noArgs = false := rfl
@[simp] lemma isDefaultParam_args : isDefaultParam (.argsList n ty) = false := rfl
@[simp] lemma isDefaultParam_kwargs : isDefaultParam (.kwargsDict n ty) = false := rfl

@[simp] lemma isNoArgsParam_normal : isNoArgsParam (.normal n ty) = false := rfl
@[simp] lemma isNoArgsParam_default : isNoArgsParam (.withDefaultValue n ty e) = false := rfl
@[simp] lemma isNoArgsParam_noArgs : isNoArgsParam .noArgs = true := rfl
@[simp] lemma isNoArgsParam_args : isNoArgsParam (.argsList n ty) = false := rfl
@[simp] lemma isNoArgsParam_kwargs : isNoArgsParam (.kwargsDict n ty) = false := rfl

@[simp] lemma isArgsParam_normal : isArgsParam (.normal n ty) = false := rfl
@[simp] lemma isArgsParam_default : isArgsParam (.withDefaultValue n ty e) = false := rfl
@[simp] lemma isArgsParam_noArgs : isArgsParam .noArgs = false := rfl
@[simp] lemma isArgsParam_args : isArgsParam (.argsList n ty) = true := rfl
@[simp] lemma isArgsParam_kwargs : isArgsParam (.kwargsDict n ty) = false := rfl

end KindSimp

@[simp] lemma boundNames_nil : boundNames [] = [] := rfl

@[simp] lemma boundNames_cons_normal (n : String) (ty : Option AstExprM)
    (ps : List ParameterM) :
    boundNames (.normal n ty :: ps) = n :: boundNames ps := rfl

@[simp] lemma boundNames_cons_default (n : String) (ty : Option AstExprM)
    (e : AstExprM) (ps : List ParameterM) :
    boundNames (.withDefaultValue n ty e :: ps) = n :: boundNames ps := rfl

@[simp] lemma boundNames_cons_noArgs (ps : List ParameterM) :
    boundNames (.noArgs :: ps) = boundNames ps := rfl

@[simp] lemma boundNames_cons_args (n : String) (ty : Option AstExprM)
    (ps : List ParameterM) :
    boundNames (.argsList n ty :: ps) = n :: boundNames ps := rfl

@[simp] lemma boundNames_cons_kwargs (n : String) (ty : Option AstExprM)
    (ps : List ParameterM) :
    boundNames (.kwargsDict n ty :: ps) = n :: boundNames ps := rfl

@[simp] lemma defOrderRel_normal (n : String) (ty : Option AstExprM)
    (b : ParameterM) : defOrderRel (.normal n ty) b = true := by
  simp [defOrderRel]

@[simp] lemma defOrderRel_default (n : String) (ty : Option AstExprM)
    (e : AstExprM) (b : ParameterM) :
    defOrderRel (.withDefaultValue n ty e) b = !isNormalParam b := by
  simp [defOrderRel]

@[simp] lemma defOrderRel_noArgs (b : ParameterM) :
    defOrderRel .noArgs b = !isStarParam b := by
  simp [defOrderRel]

@[simp] lemma defOrderRel_args (n : String) (ty : Option AstExprM)
    (b : ParameterM) : defOrderRel (.argsList n ty) b = !isStarParam b := by
  simp [defOrderRel]

@[simp] lemma defOrderRel_kwargs (n : String) (ty : Option AstExprM)
    (b : ParameterM) : defOrderRel (.kwargsDict n ty) b = false := by
  simp [defOrderRel]

/-- Threading a fresh name through the running name set: avoiding
`n :: argset` for the remaining names is the same as avoiding `argset`
with `n` prepended to the remaining names, when `n ∉ argset`. -/
lemma name_thread (n : String) (argset bn : List String) (h2 : n ∉ argset) :
    ((∀ m ∈ bn, m ∉ n :: argset) ∧ bn.Nodup) ↔
    ((∀ m ∈ n :: bn, m ∉ argset) ∧ (n :: bn).Nodup) := by
  constructor
  · rintro ⟨hmem, hnodup⟩
    refine ⟨?_, List.nodup_cons.mpr ⟨?_, hnodup⟩⟩
    · intro m hm
      rcases List.mem_cons.mp hm with rfl | hm
      · exact h2
      · intro hc
        exact hmem m hm (List.mem_cons_of_mem _ hc)
    · intro hn
      exact hmem n hn (List.mem_cons_self _ _)
  · rintro ⟨hmem, hnodup⟩
    obtain ⟨hnin, hnodup⟩ := List.nodup_cons.mp hnodup
    refine ⟨?_, hnodup⟩
    intro m hm hc
    rcases List.mem_cons.mp hc with rfl | hc
    · exact hnin hm
    · exact hmem m (List.mem_cons_of_mem _ hm) hc

/-- Characterization of the `check_def` parameter loop from an arbitrary
intermediate state: it succeeds exactly when the remaining parameters
respect the accumulated flags, bind no name already in `argset` and no
name twice, and pairwise satisfy `defOrderRel`. -/
lemma checkDefLoop_ok_iff (ps : List ParameterM) :
    ∀ (argset : List String) (sa sk so : Bool),
    checkDefLoop ⟨argset, sa, sk, so⟩ ps = .ok () ↔
      ((sk = true → ps = []) ∧
       (so = true → ∀ p ∈ ps, isNormalParam p = false) ∧
       (sa = true → ∀ p ∈ ps, isStarParam p = false) ∧
       (∀ n ∈ boundNames ps, n ∉ argset) ∧
       (boundNames ps).Nodup ∧
       ps.Pairwise (fun a b => defOrderRel a b = true)) := by
  induction ps with
  | nil => intro argset sa sk so; simp [checkDefLoop]
  | cons p ps ih =>
    intro argset sa sk so
    cases p with
    | normal n ty =>
      cases sk with
      | true =>
        have hstep : checkDefLoop ⟨argset, sa, true, so⟩
            (ParameterM.normal n ty :: ps) =
            .error .positionalThenNonPositional := by
          simp [checkDefLoop, checkDefStep]
        rw [hstep]
        exact ⟨(fun h => by cases h), fun ⟨hsk, _⟩ => by cases hsk rfl⟩
      | false =>
      cases so with
      | true =>
        have hstep : checkDefLoop ⟨argset, sa, false, true⟩
            (ParameterM.normal n ty :: ps) =
            .error .positionalThenNonPositional := by
          simp [checkDefLoop, checkDefStep]
        rw [hstep]
        refine ⟨(fun h => by cases h), ?_⟩
        rintro ⟨-, hso, -⟩
        have := hso rfl (.normal n ty) (List.mem_cons_self _ _)
        simp at this
      | false =>
      by_cases h2 : n ∈ argset
      · have hstep : checkDefLoop ⟨argset, sa, false, false⟩
            (ParameterM.normal n ty :: ps) =
            .error .duplicateParameterName := by
          simp [checkDefLoop, checkDefStep, testParamName, h2, Except.map]
        rw [hstep]
        refine ⟨(fun h => by cases h), ?_⟩
        rintro ⟨-, -, -, hmem, -⟩
        exact absurd h2 (hmem n (by simp))
      · have hstep : checkDefLoop ⟨argset, sa, false, false⟩
            (ParameterM.normal n ty :: ps) =
            checkDefLoop ⟨n :: argset, sa, false, false⟩ ps := by
          simp [checkDefLoop, checkDefStep, testParamName, h2, Except.map]
        rw [hstep, ih]
        have hname := name_thread n argset (boundNames ps) h2
        constructor
        · rintro ⟨-, -, hsa, hmem, hnodup, hpw⟩
          obtain ⟨hmem2, hnodup2⟩ := hname.mp ⟨hmem, hnodup⟩
          refine ⟨by simp, by simp, ?_, hmem2, hnodup2, ?_⟩
          · intro h q hq
            rcases List.mem_cons.mp hq with rfl | hq
            · simp
            · exact hsa h q hq
          · exact List.pairwise_cons.mpr ⟨fun b _ => by simp, hpw⟩
        · rintro ⟨-, -, hsa, hmem, hnodup, hpw⟩
          obtain ⟨hmem2, hnodup2⟩ := hname.mpr ⟨hmem, hnodup⟩
          refine ⟨by simp, by simp, ?_, hmem2, hnodup2,
            (List.pairwise_cons.mp hpw).2⟩
          intro h q hq
          exact hsa h q (List.mem_cons_of_mem _ hq)
    | withDefaultValue n ty e =>
      cases sk with
      | true =>
        have hstep : checkDefLoop ⟨argset, sa, true, so⟩
            (ParameterM.withDefaultValue n ty e :: ps) =
            .error .defaultParameterAfterStars := by
          simp [checkDefLoop, checkDefStep]
        rw [hstep]
        exact ⟨(fun h => by cases h), fun ⟨hsk, _⟩ => by cases hsk rfl⟩
      | false =>
      by_cases h2 : n ∈ argset
      · have hstep : checkDefLoop ⟨argset, sa, false, so⟩
            (ParameterM.withDefaultValue n ty e :: ps) =
            .error .duplicateParameterName := by
          simp [checkDefLoop, checkDefStep, testParamName, h2, Except.map]
        rw [hstep]
        refine ⟨(fun h => by cases h), ?_⟩
        rintro ⟨-, -, -, hmem, -⟩
        exact absurd h2 (hmem n (by simp))
      · have hstep : checkDefLoop ⟨argset, sa, false, so⟩
            (ParameterM.withDefaultValue n ty e :: ps) =
            checkDefLoop ⟨n :: argset, sa, false, true⟩ ps := by
          simp [checkDefLoop, checkDefStep, testParamName, h2, Except.map]
        rw [hstep, ih]
        have hname := name_thread n argset (boundNames ps) h2
        constructor
        · rintro ⟨-, hnonorm, hsa, hmem, hnodup, hpw⟩
          obtain ⟨hmem2, hnodup2⟩ := hname.mp ⟨hmem, hnodup⟩
          have hnonorm2 := hnonorm rfl
          refine ⟨by simp, ?_, ?_, hmem2, hnodup2, ?_⟩
          · intro _ q hq
            rcases List.mem_cons.mp hq with rfl | hq
            · simp
            · exact hnonorm2 q hq
          · intro h q hq
            rcases List.mem_cons.mp hq with rfl | hq
            · simp
            · exact hsa h q hq
          · refine List.pairwise_cons.mpr ⟨fun b hb => ?_, hpw⟩
            simp [hnonorm2 b hb]
        · rintro ⟨-, -, hsa, hmem, hnodup, hpw⟩
          obtain ⟨hmem2, hnodup2⟩ := hname.mpr ⟨hmem, hnodup⟩
          obtain ⟨hhead, hpw2⟩ := List.pairwise_cons.mp hpw
          refine ⟨by simp, ?_, ?_, hmem2, hnodup2, hpw2⟩
          · intro _ q hq
            have := hhead q hq
            simpa using this
          · intro h q hq
            exact hsa h q (List.mem_cons_of_mem _ hq)
    | noArgs =>
      cases sk with
      | true =>
        have hstep : checkDefLoop ⟨argset, sa, true, so⟩
            (ParameterM.noArgs :: ps) = .error .argsParameterAfterStars := by
          simp [checkDefLoop, checkDefStep]
        rw [hstep]
        exact ⟨(fun h => by cases h), fun ⟨hsk, _⟩ => by cases hsk rfl⟩
      | false =>
      cases sa with
      | true =>
        have hstep : checkDefLoop ⟨argset, true, false, so⟩
            (ParameterM.noArgs :: ps) = .error .argsParameterAfterStars := by
          simp [checkDefLoop, checkDefStep]
        rw [hstep]
        refine ⟨(fun h => by cases h), ?_⟩
        rintro ⟨-, -, hsa, -⟩
        have := hsa rfl .noArgs (List.mem_cons_self _ _)
        simp at this
      | false =>
      have hstep : checkDefLoop ⟨argset, false, false, so⟩
          (ParameterM.noArgs :: ps) =
          checkDefLoop ⟨argset, true, false, so⟩ ps := by
        simp [checkDefLoop, checkDefStep]
      rw [hstep, ih]
      constructor
      · rintro ⟨-, hnonorm, hnostar, hmem, hnodup, hpw⟩
        have hnostar2 := hnostar rfl
        refine ⟨by simp, ?_, by simp, hmem, hnodup, ?_⟩
        · intro h q hq
          rcases List.mem_cons.mp hq with rfl | hq
          · simp
          · exact hnonorm h q hq
        · refine List.pairwise_cons.mpr ⟨fun b hb => ?_, hpw⟩
          simp [hnostar2 b hb]
      · rintro ⟨-, hnonorm, -, hmem, hnodup, hpw⟩
        obtain ⟨hhead, hpw2⟩ := List.pairwise_cons.mp hpw
        refine ⟨by simp, ?_, ?_, hmem, hnodup, hpw2⟩
        · intro h q hq
          exact hnonorm h q (List.mem_cons_of_mem _ hq)
        · intro _ q hq
          have := hhead q hq
          simpa using this
    | argsList n ty =>
      cases sk with
      | true =>
        have hstep : checkDefLoop ⟨argset, sa, true, so⟩
            (ParameterM.argsList n ty :: ps) =
            .error .argsParameterAfterStars := by
          simp [checkDefLoop, checkDefStep]
        rw [hstep]
        exact ⟨(fun h => by cases h), fun ⟨hsk, _⟩ => by cases hsk rfl⟩
      | false =>
      cases sa with
      | true =>
        have hstep : checkDefLoop ⟨argset, true, false, so⟩
            (ParameterM.argsList n ty :: ps) =
            .error .argsParameterAfterStars := by
          simp [checkDefLoop, checkDefStep]
        rw [hstep]
        refine ⟨(fun h => by cases h), ?_⟩
        rintro ⟨-, -, hsa, -⟩
        have := hsa rfl (.argsList n ty) (List.mem_cons_self _ _)
        simp at this
      | false =>
      by_cases h2 : n ∈ argset
      · have hstep : checkDefLoop ⟨argset, false, false, so⟩
            (ParameterM.argsList n ty :: ps) =
            .error .duplicateParameterName := by
          simp [checkDefLoop, checkDefStep, testParamName, h2, Except.map]
        rw [hstep]
        refine ⟨(fun h => by cases h), ?_⟩
        rintro ⟨-, -, -, hmem, -⟩
        exact absurd h2 (hmem n (by simp))
      · have hstep : checkDefLoop ⟨argset, false, false, so⟩
            (ParameterM.argsList n ty :: ps) =
            checkDefLoop ⟨n :: argset, true, false, so⟩ ps := by
          simp [checkDefLoop, checkDefStep, testParamName, h2, Except.map]
        rw [hstep, ih]
        have hname := name_thread n argset (boundNames ps) h2
        constructor
        · rintro ⟨-, hnonorm, hnostar, hmem, hnodup, hpw⟩
          obtain ⟨hmem2, hnodup2⟩ := hname.mp ⟨hmem, hnodup⟩
          have hnostar2 := hnostar rfl
          refine ⟨by simp, ?_, by simp, hmem2, hnodup2, ?_⟩
          · intro h q hq
            rcases List.mem_cons.mp hq with rfl | hq
            · simp
            · exact hnonorm h q hq
          · refine List.pairwise_cons.mpr ⟨fun b hb => ?_, hpw⟩
            simp [hnostar2 b hb]
        · rintro ⟨-, hnonorm, -, hmem, hnodup, hpw⟩
          obtain ⟨hmem2, hnodup2⟩ := hname.mpr ⟨hmem, hnodup⟩
          obtain ⟨hhead, hpw2⟩ := List.pairwise_cons.mp hpw
          refine ⟨by simp, ?_, ?_, hmem2, hnodup2, hpw2⟩
          · intro h q hq
            exact hnonorm h q (List.mem_cons_of_mem _ hq)
          · intro _ q hq
            have := hhead q hq
            simpa using this
    | kwargsDict n ty =>
      cases sk with
      | true =>
        have hstep : checkDefLoop ⟨argset, sa, true, so⟩
            (ParameterM.kwargsDict n ty :: ps) = .error .multipleKwargs := by
          simp [checkDefLoop, checkDefStep]
        rw [hstep]
        exact ⟨(fun h => by cases h), fun ⟨hsk, _⟩ => by cases hsk rfl⟩
      | false =>
      by_cases h2 : n ∈ argset
      · have hstep : checkDefLoop ⟨argset, sa, false, so⟩
            (ParameterM.kwargsDict n ty :: ps) =
            .error .duplicateParameterName := by
          simp [checkDefLoop, checkDefStep, testParamName, h2, Except.map]
        rw [hstep]
        refine ⟨(fun h => by cases h), ?_⟩
        rintro ⟨-, -, -, hmem, -⟩
        exact absurd h2 (hmem n (by simp))
      · have hstep : checkDefLoop ⟨argset, sa, false, so⟩
            (ParameterM.kwargsDict n ty :: ps) =
            checkDefLoop ⟨n :: argset, sa, true, so⟩ ps := by
          simp [checkDefLoop, checkDefStep, testParamName, h2, Except.map]
        rw [hstep, ih]
        constructor
        · rintro ⟨hempty, -, -, -, -, -⟩
          have := hempty rfl
          subst this
          refine ⟨by simp, ?_, ?_, ?_, by simp, ?_⟩
          · intro _ q hq
            rcases List.mem_cons.mp hq with rfl | hq
            · simp
            · simp at hq
          · intro _ q hq
            rcases List.mem_cons.mp hq with rfl | hq
            · simp
            · simp at hq
          · intro m hm
            simp only [boundNames_cons_kwargs, boundNames_nil] at hm
            rcases List.mem_cons.mp hm with rfl | hm
            · exact h2
            · simp at hm
          · exact List.pairwise_cons.mpr ⟨fun b hb => by simp at hb, by simp⟩
        · rintro ⟨-, -, -, hmem, hnodup, hpw⟩
          obtain ⟨hhead, -⟩ := List.pairwise_cons.mp hpw
          have hempty : ps = [] := by
            cases ps with
            | nil => rfl
            | cons q qs =>
              have := hhead q (List.mem_cons_self _ _)
              simp at this
          subst hempty
          refine ⟨fun _ => rfl, by simp, by simp, by simp, by simp, by simp⟩

lemma checkDef_ok_iff (ps : List ParameterM) :
    checkDef ps = .ok ps ↔ checkDefAccepts ps := by
  unfold checkDef
  have hiff := checkDefLoop_ok_iff ps [] false false false
  cases hloop : checkDefLoop ⟨[], false, false, false⟩ ps with
  | error e =>
    simp only [reduceCtorEq, false_iff]
    intro hacc
    rw [hloop] at hiff
    have : (Except.error e : Except ArgumentUseOrderError Unit) = .ok () := by
      rw [hiff]
      exact ⟨by simp, by simp, by simp, by simp, hacc.1, hacc.2⟩
    cases this
  | ok u =>
    cases u
    rw [hloop] at hiff
    obtain ⟨-, -, -, -, hnodup, hpw⟩ := hiff.mp rfl
    simp only [true_iff]
    exact ⟨hnodup, hpw⟩

/-- The ordering condition each arm of `check_def` tests before anything
else (true exactly when the arm returns its ordering error). -/
def ordViolation (st : DefState) : ParameterM → Bool
  | .normal _ _ => st.seen_kwargs || st.seen_optional
  | .withDefaultValue _ _ _ => st.seen_kwargs
  | .noArgs => st.seen_args || st.seen_kwargs
  | .argsList _ _ => st.seen_args || st.seen_kwargs
  | .kwargsDict _ _ => st.seen_kwargs

/-- The ordering error each parameter kind reports. -/
def ordErrorOf : ParameterM → ArgumentUseOrderError
  | .normal _ _ => .positionalThenNonPositional
  | .withDefaultValue _ _ _ => .defaultParameterAfterStars
  | .noArgs => .argsParameterAfterStars
  | .argsList _ _ => .argsParameterAfterStars
  | .kwargsDict _ _ => .multipleKwargs

/-- C1. The claim (acceptance iff names unique and kinds follow the grammar
`Normal* WithDefaultValue* NoArgs? Args? KWArgs?`, in particular `Normal`
after `NoArgs`/`Args` rejected) is false on the code: `check_def` accepts
`(*args_a, b)` — a `Normal` parameter after an `Args` parameter — which the
claimed grammar rejects. -/
theorem check_def_c1_counterexample :
    checkDef [ParameterM.argsList "a" none, ParameterM.normal "b" none] =
      .ok [ParameterM.argsList "a" none, ParameterM.normal "b" none] ∧
    ¬ specCheckDefAccepts
      [ParameterM.argsList "a" none, ParameterM.normal "b" none] :=
  ⟨rfl, by decide⟩

/-- C1 (amended). For every parameter list, `check_def` accepts (returning
the parameter list unchanged) iff all bound names are pairwise distinct
and the ordering constraints actually enforced hold: no parameter of any
kind follows a `KWArgs`, no `Normal` follows a `WithDefaultValue`, and no
`NoArgs`/`Args` follows a `NoArgs`/`Args`. -/
theorem check_def_accepts_iff (ps : List ParameterM) :
    checkDef ps = .ok ps ↔ checkDefAccepts ps :=
  checkDef_ok_iff ps

/-- C2. The claim (name-uniqueness checked before ordering) is false on the
code: in `def f(x, y=1, x): ...` the third parameter both repeats the bound
name `x` and violates ordering (`Normal` after `WithDefaultValue`), and
`check_def` reports the ordering error, not *duplicate-parameter-name*. -/
theorem check_def_c2_counterexample :
    checkDefStep ⟨[], false, false, false⟩ (ParameterM.normal "x" none) =
      .ok ⟨["x"], false, false, false⟩ ∧
    checkDefStep ⟨["x"], false, false, false⟩
        (ParameterM.withDefaultValue "y" none 0) =
      .ok ⟨["y", "x"], false, false, true⟩ ∧
    "x" ∈ (["y", "x"] : List String) ∧
    ordViolation ⟨["y", "x"], false, false, true⟩
      (ParameterM.normal "x" none) = true ∧
    checkDef [ParameterM.normal "x" none,
        ParameterM.withDefaultValue "y" none 0,
        ParameterM.normal "x" none] =
      .error .positionalThenNonPositional ∧
    ArgumentUseOrderError.positionalThenNonPositional ≠
      ArgumentUseOrderError.duplicateParameterName := by
  refine ⟨rfl, rfl, by decide, rfl, rfl, by decide⟩

/-- C2 (amended). For every parameter kind the ordering check runs before
the name-uniqueness check: whenever a parameter violates the ordering
state machine, `check_def` reports that kind's ordering error — even if
the parameter also duplicates an already-bound name — and that error is
never *duplicate-parameter-name*. -/
theorem check_def_ordering_before_uniqueness (st : DefState) (p : ParameterM)
    (n : String) (hbind : bindsName p = some n) (hdup : n ∈ st.argset)
    (hord : ordViolation st p = true) :
    checkDefStep st p = .error (ordErrorOf p) ∧
    ordErrorOf p ≠ .duplicateParameterName := by
  cases p with
  | normal m ty =>
    refine ⟨?_, by simp [ordErrorOf]⟩
    simp only [ordViolation] at hord
    simp [checkDefStep, ordErrorOf, hord]
  | withDefaultValue m ty e =>
    refine ⟨?_, by simp [ordErrorOf]⟩
    simp only [ordViolation] at hord
    simp [checkDefStep, ordErrorOf, hord]
  | noArgs =>
    refine ⟨?_, by simp [ordErrorOf]⟩
    simp only [ordViolation] at hord
    simp [checkDefStep, ordErrorOf, hord]
  | argsList m ty =>
    refine ⟨?_, by simp [ordErrorOf]⟩
    simp only [ordViolation] at hord
    simp [checkDefStep, ordErrorOf, hord]
  | kwargsDict m ty =>
    refine ⟨?_, by simp [ordErrorOf]⟩
    simp only [ordViolation] at hord
    simp [checkDefStep, ordErrorOf, hord]

/-- Witness for the amended C2 theorem at a concrete duplicated,
ordering-violating parameter. -/
theorem check_def_ordering_before_uniqueness_witness :
    checkDefStep ⟨["x"], false, false, true⟩ (ParameterM.normal "x" none) =
      .error (ordErrorOf (ParameterM.normal "x" none)) ∧
    ordErrorOf (ParameterM.normal "x" none) ≠ .duplicateParameterName :=
  check_def_ordering_before_uniqueness ⟨["x"], false, false, true⟩
    (ParameterM.normal "x" none) "x" rfl (by decide) rfl

/-- `Argument` (syntax/ast.rs): the four kinds of call-site argument. -/
inductive ArgumentM : Type where
  | positional (e : AstExprM)
  | named (n : String) (e : AstExprM)
  | argsArray (e : AstExprM)
  | kwargsDict (e : AstExprM)
  deriving DecidableEq, Repr

/-- `ArgsStage` (syntax/validate.rs): the monotone stage of `check_call`,
with the derived order `Positional < Named < Args < Kwargs`. -/
inductive ArgsStage : Type where
  | positional
  | named
  | args
  | kwargs
  deriving DecidableEq, Repr

/-- Rank realising the derived `Ord` of `ArgsStage` (declaration order). -/
def ArgsStage.rank : ArgsStage → Nat
  | .positional => 0
  | .named => 1
  | .args => 2
  | .kwargs => 3

/-- `ArgumentDefinitionOrderError` (syntax/validate.rs). -/
inductive ArgumentDefinitionOrderError : Type where
  | positionalThenNonPositional
  | namedArgumentAfterStars
  | repeatedNamed
  | argsArrayAfterArgsOrKwargs
  | multipleKwargs
  deriving DecidableEq, Repr

/-- The mutable state of the `check_call` loop: the current stage and the
set of named-argument names seen (modelled as a list). -/
structure CallState : Type where
  stage : ArgsStage
  named_args : List String
  deriving DecidableEq, Repr

/-- One iteration of the `check_call` argument loop
(syntax/validate.rs, `Expr::check_call`).  `named_args.insert` returning
`false` on a present element is modelled as the membership test. -/
def checkCallStep (st : CallState) (a : ArgumentM) :
    Except ArgumentDefinitionOrderError CallState :=
  match a with
  | .positional _ =>
      if st.stage ≠ .positional then .error .positionalThenNonPositional
      else .ok st
  | .named n _ =>
      if ArgsStage.named.rank < st.stage.rank then
        .error .namedArgumentAfterStars
      else if n ∈ st.named_args then .error .repeatedNamed
      else .ok ⟨.named, n :: st.named_args⟩
  | .argsArray _ =>
      if ArgsStage.named.rank < st.stage.rank then
        .error .argsArrayAfterArgsOrKwargs
      else .ok ⟨.args, st.named_args⟩
  | .kwargsDict _ =>
      if st.stage = .kwargs then .error .multipleKwargs
      else .ok ⟨.kwargs, st.named_args⟩

/-- The `check_call` argument loop, threading `CallState` left to right. -/
def checkCallLoop (st : CallState) : List ArgumentM →
    Except ArgumentDefinitionOrderError Unit
  | [] => .ok ()
  | a :: as_ =>
      match checkCallStep st a with
      | .error e => .error e
      | .ok st2 => checkCallLoop st2 as_

/-- `Expr::check_call` (syntax/validate.rs), restricted to the value the
claims observe: on success the argument list is returned unchanged (the
source builds `Expr::Call(box f, args)` from the untouched inputs). -/
def checkCall (args : List ArgumentM) :
    Except ArgumentDefinitionOrderError (List ArgumentM) :=
  match checkCallLoop ⟨.positional, []⟩ args with
  | .error e => .error e
  | .ok _ => .ok args

/-- The stage an argument kind belongs to. -/
def argStage : ArgumentM → ArgsStage
  | .positional _ => .positional
  | .named _ _ => .named
  | .argsArray _ => .args
  | .kwargsDict _ => .kwargs

/-- Names of the named arguments, in order. -/
def namedNames (args : List ArgumentM) : List String :=
  args.filterMap fun a =>
    match a with
    | .named n _ => some n
    | _ => none

/-- Kind test: `Positional`. -/
def isPositionalArg : ArgumentM → Bool
  | .positional _ => true
  | _ => false

/-- Kind test: `Named`. -/
def isNamedArg : ArgumentM → Bool
  | .named _ _ => true
  | _ => false

/-- Kind test: `ArgsArray`. -/
def isArgsArrayArg : ArgumentM → Bool
  | .argsArray _ => true
  | _ => false

/-- Kind test: `KWArgsDict`. -/
def isKwargsArg : ArgumentM → Bool
  | .kwargsDict _ => true
  | _ => false

/-- Pairwise constraint between an earlier argument `a` and a later
argument `b` equivalent to `check_call` acceptance: stages non-decreasing
and no repetition of `ArgsArray` or `KWArgsDict`. -/
def callRel (a b : ArgumentM) : Bool :=
  ((argStage a).rank ≤ (argStage b).rank) &&
  (!isArgsArrayArg a || !isArgsArrayArg b) &&
  (!isKwargsArg a || !isKwargsArg b)

/-- The claim's acceptance condition for call-argument sequences: tag
sequence non-decreasing through the four stages, named names distinct,
`ArgsArray` and `KWArgsDict` each at most once. -/
def specCheckCallAccepts (args : List ArgumentM) : Prop :=
  args.Pairwise (fun a b => (argStage a).rank ≤ (argStage b).rank) ∧
  (namedNames args).Nodup ∧
  args.countP isArgsArrayArg ≤ 1 ∧
  args.countP isKwargsArg ≤ 1

instance (args : List ArgumentM) : Decidable (specCheckCallAccepts args) := by
  unfold specCheckCallAccepts; infer_instance

section ArgKindSimp
variable (n : String) (e : AstExprM)

@[simp] lemma argStage_positional : argStage (.positional e) = .positional := rfl
@[simp] lemma argStage_named : argStage (.named n e) = .named := rfl
@[simp] lemma argStage_argsArray : argStage (.argsArray e) = .args := rfl
@[simp] lemma argStage_kwargsDict : argStage (.kwargsDict e) = .kwargs := rfl

@[simp] lemma isPositionalArg_positional : isPositionalArg (.positional e) = true := rfl
@[simp] lemma isPositionalArg_named : isPositionalArg (.named n e) = false := rfl
@[simp] lemma isPositionalArg_argsArray : isPositionalArg (.argsArray e) = false := rfl
@[simp] lemma isPositionalArg_kwargsDict : isPositionalArg (.kwargsDict e) = false := rfl

@[simp] lemma isNamedArg_positional : isNamedArg (.positional e) = false := rfl
@[simp] lemma isNamedArg_named : isNamedArg (.named n e) = true := rfl
@[simp] lemma isNamedArg_argsArray : isNamedArg (.argsArray e) = false := rfl
@[simp] lemma isNamedArg_kwargsDict : isNamedArg (.kwargsDict e) = false := rfl

@[simp] lemma isArgsArrayArg_positional : isArgsArrayArg (.positional e) = false := rfl
@[simp] lemma isArgsArrayArg_named : isArgsArrayArg (.named n e) = false := rfl
@[simp] lemma isArgsArrayArg_argsArray : isArgsArrayArg (.argsArray e) = true := rfl
@[simp] lemma isArgsArrayArg_kwargsDict : isArgsArrayArg (.kwargsDict e) = false := rfl

@[simp] lemma isKwargsArg_positional : isKwargsArg (.positional e) = false := rfl
@[simp] lemma isKwargsArg_named : isKwargsArg (.named n e) = false := rfl
@[simp] lemma isKwargsArg_argsArray : isKwargsArg (.argsArray e) = false := rfl
@[simp] lemma isKwargsArg_kwargsDict : isKwargsArg (.kwargsDict e) = true := rfl

@[simp] lemma namedNames_nil : namedNames [] = [] := rfl
@[simp] lemma namedNames_cons_positional (args : List ArgumentM) :
    namedNames (.positional e :: args) = namedNames args := rfl
@[simp] lemma namedNames_cons_named (args : List ArgumentM) :
    namedNames (.named n e :: args) = n :: namedNames args := rfl
@[simp] lemma namedNames_cons_argsArray (args : List ArgumentM) :
    namedNames (.argsArray e :: args) = namedNames args := rfl
@[simp] lemma namedNames_cons_kwargsDict (args : List ArgumentM) :
    namedNames (.kwargsDict e :: args) = namedNames args := rfl

@[simp] lemma callRel_positional (b : ArgumentM) :
    callRel (.positional e) b = true := by
  cases b <;> simp [callRel, ArgsStage.rank]

@[simp] lemma callRel_named (b : ArgumentM) :
    callRel (.named n e) b = decide (1 ≤ (argStage b).rank) := by
  cases b <;> simp [callRel, ArgsStage.rank]

@[simp] lemma callRel_argsArray (b : ArgumentM) :
    callRel (.argsArray e) b =
      (decide (2 ≤ (argStage b).rank) && !isArgsArrayArg b) := by
  cases b <;> simp [callRel, ArgsStage.rank]

@[simp] lemma callRel_kwargsDict (b : ArgumentM) :
    callRel (.kwargsDict e) b = false := by
  cases b <;> simp [callRel, ArgsStage.rank]

end ArgKindSimp

@[simp] lemma rank_positional : ArgsStage.positional.rank = 0 := rfl
@[simp] lemma rank_named : ArgsStage.named.rank = 1 := rfl
@[simp] lemma rank_args : ArgsStage.args.rank = 2 := rfl
@[simp] lemma rank_kwargs : ArgsStage.kwargs.rank = 3 := rfl

lemma rank_one_le_iff (b : ArgumentM) :
    1 ≤ (argStage b).rank ↔ isPositionalArg b = false := by
  cases b <;> simp [ArgsStage.rank]

lemma rank_two_le_iff (b : ArgumentM) :
    2 ≤ (argStage b).rank ↔
      (isPositionalArg b = false ∧ isNamedArg b = false) := by
  cases b <;> simp [ArgsStage.rank]

/-- Characterization of the `check_call` argument loop from an arbitrary
intermediate state: it succeeds exactly when the remaining arguments
respect the accumulated stage, repeat no named name (nor any name in
`named_args`), and pairwise satisfy `callRel`. -/
lemma checkCallLoop_ok_iff (args : List ArgumentM) :
    ∀ (stage : ArgsStage) (seen : List String),
    checkCallLoop ⟨stage, seen⟩ args = .ok () ↔
      ((1 ≤ stage.rank → ∀ a ∈ args, isPositionalArg a = false) ∧
       (2 ≤ stage.rank →
          ∀ a ∈ args, isNamedArg a = false ∧ isArgsArrayArg a = false) ∧
       (stage = .kwargs → args = []) ∧
       (∀ n ∈ namedNames args, n ∉ seen) ∧
       (namedNames args).Nodup ∧
       args.Pairwise (fun a b => callRel a b = true)) := by
  induction args with
  | nil => intro stage seen; simp [checkCallLoop]
  | cons a args ih =>
    intro stage seen
    cases a with
    | positional e =>
      cases stage with
      | positional =>
        have hstep : checkCallLoop ⟨.positional, seen⟩
            (ArgumentM.positional e :: args) =
            checkCallLoop ⟨.positional, seen⟩ args := by
          simp [checkCallLoop, checkCallStep]
        rw [hstep, ih]
        constructor
        · rintro ⟨-, -, -, hmem, hnodup, hpw⟩
          refine ⟨by simp, by simp, by simp, hmem, hnodup,
            List.pairwise_cons.mpr ⟨fun b _ => by simp, hpw⟩⟩
        · rintro ⟨-, -, -, hmem, hnodup, hpw⟩
          exact ⟨by simp, by simp, by simp, hmem, hnodup,
            (List.pairwise_cons.mp hpw).2⟩
      | named =>
        have hstep : checkCallLoop ⟨.named, seen⟩
            (ArgumentM.positional e :: args) =
            .error .positionalThenNonPositional := by
          simp [checkCallLoop, checkCallStep]
        rw [hstep]
        refine ⟨(fun h => by cases h), ?_⟩
        rintro ⟨hpos, -⟩
        have := hpos (by simp) (.positional e) (List.mem_cons_self _ _)
        simp at this
      | args =>
        have hstep : checkCallLoop ⟨.args, seen⟩
            (ArgumentM.positional e :: args) =
            .error .positionalThenNonPositional := by
          simp [checkCallLoop, checkCallStep]
        rw [hstep]
        refine ⟨(fun h => by cases h), ?_⟩
        rintro ⟨hpos, -⟩
        have := hpos (by simp) (.positional e) (List.mem_cons_self _ _)
        simp at this
      | kwargs =>
        have hstep : checkCallLoop ⟨.kwargs, seen⟩
            (ArgumentM.positional e :: args) =
            .error .positionalThenNonPositional := by
          simp [checkCallLoop, checkCallStep]
        rw [hstep]
        refine ⟨(fun h => by cases h), ?_⟩
        rintro ⟨-, -, hkw, -⟩
        cases hkw rfl
    | named n e =>
      cases stage with
      | args =>
        have hstep : checkCallLoop ⟨.args, seen⟩
            (ArgumentM.named n e :: args) =
            .error .namedArgumentAfterStars := by
          simp [checkCallLoop, checkCallStep]
        rw [hstep]
        refine ⟨(fun h => by cases h), ?_⟩
        rintro ⟨-, hnn, -⟩
        have := (hnn (by simp) (.named n e) (List.mem_cons_self _ _)).1
        simp at this
      | kwargs =>
        have hstep : checkCallLoop ⟨.kwargs, seen⟩
            (ArgumentM.named n e :: args) =
            .error .namedArgumentAfterStars := by
          simp [checkCallLoop, checkCallStep]
        rw [hstep]
        refine ⟨(fun h => by cases h), ?_⟩
        rintro ⟨-, -, hkw, -⟩
        cases hkw rfl
      | positional =>
        by_cases h2 : n ∈ seen
        · have hstep : checkCallLoop ⟨.positional, seen⟩
              (ArgumentM.named n e :: args) = .error .repeatedNamed := by
            simp [checkCallLoop, checkCallStep, h2]
          rw [hstep]
          refine ⟨(fun h => by cases h), ?_⟩
          rintro ⟨-, -, -, hmem, -⟩
          exact absurd h2 (hmem n (by simp))
        · have hstep : checkCallLoop ⟨.positional, seen⟩
              (ArgumentM.named n e :: args) =
              checkCallLoop ⟨.named, n :: seen⟩ args := by
            simp [checkCallLoop, checkCallStep, h2]
          rw [hstep, ih]
          have hname := name_thread n seen (namedNames args) h2
          constructor
          · rintro ⟨hnopos, -, -, hmem, hnodup, hpw⟩
            obtain ⟨hmem2, hnodup2⟩ := hname.mp ⟨hmem, hnodup⟩
            have hnopos2 := hnopos (by simp)
            refine ⟨by simp, by simp, by simp, hmem2, hnodup2,
              List.pairwise_cons.mpr ⟨fun b hb => ?_, hpw⟩⟩
            simp [(rank_one_le_iff b).mpr (hnopos2 b hb)]
          · rintro ⟨-, -, -, hmem, hnodup, hpw⟩
            obtain ⟨hmem2, hnodup2⟩ := hname.mpr ⟨hmem, hnodup⟩
            obtain ⟨hhead, hpw2⟩ := List.pairwise_cons.mp hpw
            refine ⟨?_, by simp, by simp, hmem2, hnodup2, hpw2⟩
            intro _ b hb
            have := hhead b hb
            simp at this
            exact (rank_one_le_iff b).mp this
      | named =>
        by_cases h2 : n ∈ seen
        · have hstep : checkCallLoop ⟨.named, seen⟩
              (ArgumentM.named n e :: args) = .error .repeatedNamed := by
            simp [checkCallLoop, checkCallStep, h2]
          rw [hstep]
          refine ⟨(fun h => by cases h), ?_⟩
          rintro ⟨-, -, -, hmem, -⟩
          exact absurd h2 (hmem n (by simp))
        · have hstep : checkCallLoop ⟨.named, seen⟩
              (ArgumentM.named n e :: args) =
              checkCallLoop ⟨.named, n :: seen⟩ args := by
            simp [checkCallLoop, checkCallStep, h2]
          rw [hstep, ih]
          have hname := name_thread n seen (namedNames args) h2
          constructor
          · rintro ⟨hnopos, -, -, hmem, hnodup, hpw⟩
            obtain ⟨hmem2, hnodup2⟩ := hname.mp ⟨hmem, hnodup⟩
            have hnopos2 := hnopos (by simp)
            refine ⟨?_, by simp, by simp, hmem2, hnodup2,
              List.pairwise_cons.mpr ⟨fun b hb => ?_, hpw⟩⟩
            · intro _ b hb
              rcases List.mem_cons.mp hb with rfl | hb
              · simp
              · exact hnopos2 b hb
            · simp [(rank_one_le_iff b).mpr (hnopos2 b hb)]
          · rintro ⟨-, -, -, hmem, hnodup, hpw⟩
            obtain ⟨hmem2, hnodup2⟩ := hname.mpr ⟨hmem, hnodup⟩
            obtain ⟨hhead, hpw2⟩ := List.pairwise_cons.mp hpw
            refine ⟨?_, by simp, by simp, hmem2, hnodup2, hpw2⟩
            intro _ b hb
            have := hhead b hb
            simp at this
            exact (rank_one_le_iff b).mp this
    | argsArray e =>
      cases stage with
      | args =>
        have hstep : checkCallLoop ⟨.args, seen⟩
            (ArgumentM.argsArray e :: args) =
            .error .argsArrayAfterArgsOrKwargs := by
          simp [checkCallLoop, checkCallStep]
        rw [hstep]
        refine ⟨(fun h => by cases h), ?_⟩
        rintro ⟨-, hnn, -⟩
        have := (hnn (by simp) (.argsArray e) (List.mem_cons_self _ _)).2
        simp at this
      | kwargs =>
        have hstep : checkCallLoop ⟨.kwargs, seen⟩
            (ArgumentM.argsArray e :: args) =
            .error .argsArrayAfterArgsOrKwargs := by
          simp [checkCallLoop, checkCallStep]
        rw [hstep]
        refine ⟨(fun h => by cases h), ?_⟩
        rintro ⟨-, -, hkw, -⟩
        cases hkw rfl
      | positional =>
        have hstep : checkCallLoop ⟨.positional, seen⟩
            (ArgumentM.argsArray e :: args) =
            checkCallLoop ⟨.args, seen⟩ args := by
          simp [checkCallLoop, checkCallStep]
        rw [hstep, ih]
        constructor
        · rintro ⟨hnopos, hnn, -, hmem, hnodup, hpw⟩
          have hnopos2 := hnopos (by simp)
          have hnn2 := hnn (by simp)
          refine ⟨by simp, by simp, by simp, hmem, hnodup,
            List.pairwise_cons.mpr ⟨fun b hb => ?_, hpw⟩⟩
          simp [(rank_two_le_iff b).mpr ⟨hnopos2 b hb, (hnn2 b hb).1⟩,
            (hnn2 b hb).2]
        · rintro ⟨-, -, -, hmem, hnodup, hpw⟩
          obtain ⟨hhead, hpw2⟩ := List.pairwise_cons.mp hpw
          refine ⟨?_, ?_, by simp, hmem, hnodup, hpw2⟩
          · intro _ b hb
            have := hhead b hb
            simp at this
            exact ((rank_two_le_iff b).mp this.1).1
          · intro _ b hb
            have := hhead b hb
            simp at this
            exact ⟨((rank_two_le_iff b).mp this.1).2, this.2⟩
      | named =>
        have hstep : checkCallLoop ⟨.named, seen⟩
            (ArgumentM.argsArray e :: args) =
            checkCallLoop ⟨.args, seen⟩ args := by
          simp [checkCallLoop, checkCallStep]
        rw [hstep, ih]
        constructor
        · rintro ⟨hnopos, hnn, -, hmem, hnodup, hpw⟩
          have hnopos2 := hnopos (by simp)
          have hnn2 := hnn (by simp)
          refine ⟨?_, by simp, by simp, hmem, hnodup,
            List.pairwise_cons.mpr ⟨fun b hb => ?_, hpw⟩⟩
          · intro _ b hb
            rcases List.mem_cons.mp hb with rfl | hb
            · simp
            · exact hnopos2 b hb
          · simp [(rank_two_le_iff b).mpr ⟨hnopos2 b hb, (hnn2 b hb).1⟩,
              (hnn2 b hb).2]
        · rintro ⟨-, -, -, hmem, hnodup, hpw⟩
          obtain ⟨hhead, hpw2⟩ := List.pairwise_cons.mp hpw
          refine ⟨?_, ?_, by simp, hmem, hnodup, hpw2⟩
          · intro _ b hb
            have := hhead b hb
            simp at this
            exact ((rank_two_le_iff b).mp this.1).1
          · intro _ b hb
            have := hhead b hb
            simp at this
            exact ⟨((rank_two_le_iff b).mp this.1).2, this.2⟩
    | kwargsDict e =>
      cases stage with
      | kwargs =>
        have hstep : checkCallLoop ⟨.kwargs, seen⟩
            (ArgumentM.kwargsDict e :: args) = .error .multipleKwargs := by
          simp [checkCallLoop, checkCallStep]
        rw [hstep]
        refine ⟨(fun h => by cases h), ?_⟩
        rintro ⟨-, -, hkw, -⟩
        cases hkw rfl
      | positional =>
        have hstep : checkCallLoop ⟨.positional, seen⟩
            (ArgumentM.kwargsDict e :: args) =
            checkCallLoop ⟨.kwargs, seen⟩ args := by
          simp [checkCallLoop, checkCallStep]
        rw [hstep, ih]
        constructor
        · rintro ⟨-, -, hkw, -, -, -⟩
          have hempty := hkw rfl
          subst hempty
          exact ⟨by simp, by simp, by simp, by simp, by simp,
            List.pairwise_cons.mpr ⟨fun b hb => by simp at hb, by simp⟩⟩
        · rintro ⟨-, -, -, -, -, hpw⟩
          obtain ⟨hhead, -⟩ := List.pairwise_cons.mp hpw
          have hempty : args = [] := by
            cases args with
            | nil => rfl
            | cons q qs =>
              have := hhead q (List.mem_cons_self _ _)
              simp at this
          subst hempty
          exact ⟨by simp, by simp, fun _ => rfl, by simp, by simp, by simp⟩
      | named =>
        have hstep : checkCallLoop ⟨.named, seen⟩
            (ArgumentM.kwargsDict e :: args) =
            checkCallLoop ⟨.kwargs, seen⟩ args := by
          simp [checkCallLoop, checkCallStep]
        rw [hstep, ih]
        constructor
        · rintro ⟨-, -, hkw, -, -, -⟩
          have hempty := hkw rfl
          subst hempty
          refine ⟨?_, by simp, by simp, by simp, by simp,
            List.pairwise_cons.mpr ⟨fun b hb => by simp at hb, by simp⟩⟩
          intro _ b hb
          rcases List.mem_cons.mp hb with rfl | hb
          · simp
          · simp at hb
        · rintro ⟨-, -, -, -, -, hpw⟩
          obtain ⟨hhead, -⟩ := List.pairwise_cons.mp hpw
          have hempty : args = [] := by
            cases args with
            | nil => rfl
            | cons q qs =>
              have := hhead q (List.mem_cons_self _ _)
              simp at this
          subst hempty
          exact ⟨by simp, by simp, fun _ => rfl, by simp, by simp, by simp⟩
      | args =>
        have hstep : checkCallLoop ⟨.args, seen⟩
            (ArgumentM.kwargsDict e :: args) =
            checkCallLoop ⟨.kwargs, seen⟩ args := by
          simp [checkCallLoop, checkCallStep]
        rw [hstep, ih]
        constructor
        · rintro ⟨-, -, hkw, -, -, -⟩
          have hempty := hkw rfl
          subst hempty
          refine ⟨?_, ?_, by simp, by simp, by simp,
            List.pairwise_cons.mpr ⟨fun b hb => by simp at hb, by simp⟩⟩
          · intro _ b hb
            rcases List.mem_cons.mp hb with rfl | hb
            · simp
            · simp at hb
          · intro _ b hb
            rcases List.mem_cons.mp hb with rfl | hb
            · simp
            · simp at hb
        · rintro ⟨-, -, -, -, -, hpw⟩
          obtain ⟨hhead, -⟩ := List.pairwise_cons.mp hpw
          have hempty : args = [] := by
            cases args with
            | nil => rfl
            | cons q qs =>
              have := hhead q (List.mem_cons_self _ _)
              simp at this
          subst hempty
          exact ⟨by simp, by simp, fun _ => rfl, by simp, by simp, by simp⟩

/-- A predicate holds at most once in a list iff no two (ordered)
occurrences both satisfy it. -/
lemma countP_le_one_iff {α : Type} (p : α → Bool) (l : List α) :
    l.countP p ≤ 1 ↔
      l.Pairwise (fun a b => ¬(p a = true ∧ p b = true)) := by
  induction l with
  | nil => simp
  | cons a l ih =>
    rw [List.countP_cons, List.pairwise_cons]
    by_cases hp : p a = true
    · rw [if_pos hp]
      constructor
      · intro h
        have h0 : l.countP p = 0 := by omega
        have hall : ∀ x ∈ l, ¬p x = true := List.countP_eq_zero.mp h0
        exact ⟨fun b hb hc => hall b hb hc.2,
          List.pairwise_of_forall_mem_list fun x hx y hy hc => hall x hx hc.1⟩
      · rintro ⟨hhead, -⟩
        have h0 : l.countP p = 0 :=
          List.countP_eq_zero.mpr fun x hx hpx => hhead x hx ⟨hp, hpx⟩
        omega
    · rw [if_neg hp]
      constructor
      · intro h
        exact ⟨fun b hb hc => hp hc.1, ih.mp (by omega)⟩
      · rintro ⟨-, hpw⟩
        have := ih.mpr hpw
        omega

/-- The claim's acceptance condition coincides with the pairwise
condition `callRel`. -/
lemma specCheckCallAccepts_iff (args : List ArgumentM) :
    specCheckCallAccepts args ↔
      ((namedNames args).Nodup ∧
       args.Pairwise (fun a b => callRel a b = true)) := by
  unfold specCheckCallAccepts
  rw [countP_le_one_iff, countP_le_one_iff]
  constructor
  · rintro ⟨hrank, hnodup, hargs, hkw⟩
    refine ⟨hnodup, ?_⟩
    have hand := List.pairwise_and_iff.mpr ⟨hrank,
      List.pairwise_and_iff.mpr ⟨hargs, hkw⟩⟩
    refine hand.imp ?_
    rintro a b ⟨h1, h2, h3⟩
    simp only [callRel, Bool.and_eq_true, decide_eq_true_eq,
      Bool.or_eq_true, Bool.not_eq_true']
    refine ⟨⟨h1, ?_⟩, ?_⟩
    · rcases Bool.eq_false_or_eq_true (isArgsArrayArg a) with h | h
      · rcases Bool.eq_false_or_eq_true (isArgsArrayArg b) with h4 | h4
        · exact absurd ⟨h, h4⟩ h2
        · exact Or.inr h4
      · exact Or.inl h
    · rcases Bool.eq_false_or_eq_true (isKwargsArg a) with h | h
      · rcases Bool.eq_false_or_eq_true (isKwargsArg b) with h4 | h4
        · exact absurd ⟨h, h4⟩ h3
        · exact Or.inr h4
      · exact Or.inl h
  · rintro ⟨hnodup, hpw⟩
    have hand : args.Pairwise (fun a b =>
        (argStage a).rank ≤ (argStage b).rank ∧
        (¬(isArgsArrayArg a = true ∧ isArgsArrayArg b = true) ∧
         ¬(isKwargsArg a = true ∧ isKwargsArg b = true))) := by
      refine hpw.imp ?_
      intro a b h
      simp only [callRel, Bool.and_eq_true, decide_eq_true_eq,
        Bool.or_eq_true, Bool.not_eq_true'] at h
      obtain ⟨⟨h1, h2⟩, h3⟩ := h
      refine ⟨h1, ?_, ?_⟩
      · rintro ⟨ha, hb⟩
        rcases h2 with h | h
        · rw [ha] at h; cases h
        · rw [hb] at h; cases h
      · rintro ⟨ha, hb⟩
        rcases h3 with h | h
        · rw [ha] at h; cases h
        · rw [hb] at h; cases h
    obtain ⟨hrank, hrest⟩ := List.pairwise_and_iff.mp hand
    obtain ⟨hargs, hkw⟩ := List.pairwise_and_iff.mp hrest
    exact ⟨hrank, hnodup, hargs, hkw⟩

/-- An error of the argument loop is preserved by appending further
arguments: the loop returns on the first violation and never looks at
later arguments. -/
lemma checkCallLoop_append_error (l : List ArgumentM) :
    ∀ (st : CallState) (e : ArgumentDefinitionOrderError),
    checkCallLoop st l = .error e →
    ∀ l', checkCallLoop st (l ++ l') = .error e := by
  induction l with
  | nil => intro st e h; cases h
  | cons a l ih =>
    intro st e h l'
    rw [List.cons_append]
    rw [show checkCallLoop st (a :: l) =
      match checkCallStep st a with
      | .error e => .error e
      | .ok st2 => checkCallLoop st2 l from rfl] at h
    rw [show checkCallLoop st (a :: (l ++ l')) =
      match checkCallStep st a with
      | .error e => .error e
      | .ok st2 => checkCallLoop st2 (l ++ l') from rfl]
    cases hstep : checkCallStep st a with
    | error e2 => rw [hstep] at h; exact h
    | ok st2 => rw [hstep] at h; exact ih st2 e h l'

/-- C3. For every call-argument sequence, `check_call` accepts (returning
the call's argument list unchanged) iff the tag sequence is non-decreasing
through `Positional < Named < ArgsArray < KWArgsDict`, named names are
distinct, and `ArgsArray`/`KWArgsDict` each occur at most once; and the
first violating argument's error is definitive — appending any further
arguments cannot change it, so no later argument is inspected. -/
theorem check_call_accepts_iff (args : List ArgumentM) :
    (checkCall args = .ok args ↔ specCheckCallAccepts args) ∧
    (∀ (e : ArgumentDefinitionOrderError) (post : List ArgumentM),
       checkCall args = .error e → checkCall (args ++ post) = .error e) := by
  constructor
  · rw [specCheckCallAccepts_iff]
    unfold checkCall
    have hiff := checkCallLoop_ok_iff args .positional []
    cases hloop : checkCallLoop ⟨.positional, []⟩ args with
    | error e =>
      rw [hloop] at hiff
      simp only [reduceCtorEq, false_iff]
      rintro ⟨hnodup, hpw⟩
      have : (Except.error e : Except ArgumentDefinitionOrderError Unit) =
          .ok () := by
        rw [hiff]
        exact ⟨by simp, by simp, by simp, by simp, hnodup, hpw⟩
      cases this
    | ok u =>
      cases u
      rw [hloop] at hiff
      obtain ⟨-, -, -, -, hnodup, hpw⟩ := hiff.mp rfl
      simp only [true_iff]
      exact ⟨hnodup, hpw⟩
  · intro e post herr
    unfold checkCall at herr ⊢
    cases hloop : checkCallLoop ⟨.positional, []⟩ args with
    | error e2 =>
      rw [hloop] at herr
      have he2 : e2 = e := by simpa using herr
      subst he2
      rw [checkCallLoop_append_error args ⟨.positional, []⟩ e2 hloop post]
    | ok u =>
      rw [hloop] at herr
      cases herr

/-- Witness for C3 at concrete inputs: a legal call is accepted, and a
call whose second argument is positional-after-named keeps that exact
error when further arguments are appended. -/
theorem check_call_accepts_iff_witness :
    checkCall [ArgumentM.positional 0, ArgumentM.named "x" 1] =
      .ok [ArgumentM.positional 0, ArgumentM.named "x" 1] ∧
    checkCall ([ArgumentM.named "x" 0, ArgumentM.positional 1] ++
        [ArgumentM.named "x" 2]) =
      .error .positionalThenNonPositional :=
  ⟨(check_call_accepts_iff [ArgumentM.positional 0,
      ArgumentM.named "x" 1]).1.mpr (by decide),
   (check_call_accepts_iff [ArgumentM.named "x" 0,
      ArgumentM.positional 1]).2 .positionalThenNonPositional
      [ArgumentM.named "x" 2] rfl⟩

/-- `ValidateError` (syntax/validate.rs): break/continue diagnostics. -/
inductive ValidateErrorM : Type where
  | breakOutsideLoop
  | continueOutsideLoop
  deriving DecidableEq, Repr

/-- Modelled from the spec: the statement AST (`Stmt` of syntax/ast.rs is
not among the sources at hand) restricted to the shapes
`validate_break_continue` distinguishes — `break`, `continue`, `for` and
`def` (each with a body), and the remaining statements, which only expose
child statements to the traversal: sequencing, `if`, `if/else`, and
childless statements (`pass`, expressions, assignments, ...). -/
inductive StmtM : Type where
  | breakS
  | continueS
  | pass
  | forS (body : StmtM)
  | defS (body : StmtM)
  | seq (a b : StmtM)
  | ifS (t : StmtM)
  | ifElse (t f : StmtM)
  deriving DecidableEq, Repr

mutual

/-- `inside_for` (syntax/validate.rs, `Stmt::validate_break_continue`):
inside a `for`, only a `def` switches back to the outside traversal; all
other statements have their children visited in inside mode
(`visit_stmt_result`, modelled from the spec as visiting each direct
child statement and stopping at the first error). -/
def insideFor : StmtM → Except ValidateErrorM Unit
  | .defS body => outsideFor body
  | .breakS => .ok ()
  | .continueS => .ok ()
  | .pass => .ok ()
  | .forS body => insideFor body
  | .seq a b =>
      match insideFor a with
      | .error e => .error e
      | .ok _ => insideFor b
  | .ifS t => insideFor t
  | .ifElse t f =>
      match insideFor t with
      | .error e => .error e
      | .ok _ => insideFor f

/-- `outside_for` (syntax/validate.rs, `Stmt::validate_break_continue`):
outside a `for`, a `for` body switches to the inside traversal, `break`
and `continue` are errors, and every other statement (including `def`)
has its children visited in outside mode. -/
def outsideFor : StmtM → Except ValidateErrorM Unit
  | .forS body => insideFor body
  | .breakS => .error .breakOutsideLoop
  | .continueS => .error .continueOutsideLoop
  | .pass => .ok ()
  | .defS body => outsideFor body
  | .seq a b =>
      match outsideFor a with
      | .error e => .error e
      | .ok _ => outsideFor b
  | .ifS t => outsideFor t
  | .ifElse t f =>
      match outsideFor t with
      | .error e => .error e
      | .ok _ => outsideFor f

end

/-- `Stmt::validate_break_continue` (syntax/validate.rs): start outside
any loop. -/
def validateBreakContinue (s : StmtM) : Except ValidateErrorM Unit :=
  outsideFor s

/-- The claim's placement predicate: every `break`/`continue` is reachable
from an enclosing `for` body without crossing a function-definition
boundary.  The flag records whether the current point is inside a loop;
`for` bodies set it, `def` bodies clear it. -/
def wellPlaced (insideLoop : Bool) : StmtM → Bool
  | .breakS => insideLoop
  | .continueS => insideLoop
  | .pass => true
  | .forS body => wellPlaced true body
  | .defS body => wellPlaced false body
  | .seq a b => wellPlaced insideLoop a && wellPlaced insideLoop b
  | .ifS t => wellPlaced insideLoop t
  | .ifElse t f => wellPlaced insideLoop t && wellPlaced insideLoop f

/-- Both traversals succeed exactly on well-placed statement trees for
their respective modes. -/
lemma validate_modes_ok_iff (s : StmtM) :
    (insideFor s = .ok () ↔ wellPlaced true s = true) ∧
    (outsideFor s = .ok () ↔ wellPlaced false s = true) := by
  induction s with
  | breakS => exact ⟨by simp [insideFor, wellPlaced],
      by simp [outsideFor, wellPlaced]⟩
  | continueS => exact ⟨by simp [insideFor, wellPlaced],
      by simp [outsideFor, wellPlaced]⟩
  | pass => exact ⟨by simp [insideFor, wellPlaced],
      by simp [outsideFor, wellPlaced]⟩
  | forS body ih =>
    exact ⟨by simp [insideFor, wellPlaced, ih.1],
      by simp [outsideFor, wellPlaced, ih.1]⟩
  | defS body ih =>
    exact ⟨by simp [insideFor, wellPlaced, ih.2],
      by simp [outsideFor, wellPlaced, ih.2]⟩
  | seq a b iha ihb =>
    constructor
    · rw [show insideFor (.seq a b) =
        (match insideFor a with
         | .error e => .error e
         | .ok _ => insideFor b) from rfl]
      cases ha : insideFor a with
      | error e =>
        simp only [wellPlaced, Bool.and_eq_true]
        constructor
        · intro h; cases h
        · rintro ⟨h1, -⟩
          rw [iha.1.mpr h1] at ha
          cases ha
      | ok u =>
        cases u
        simp only [wellPlaced, Bool.and_eq_true, ihb.1]
        have := iha.1.mp ha
        simp [this]
    · rw [show outsideFor (.seq a b) =
        (match outsideFor a with
         | .error e => .error e
         | .ok _ => outsideFor b) from rfl]
      cases ha : outsideFor a with
      | error e =>
        simp only [wellPlaced, Bool.and_eq_true]
        constructor
        · intro h; cases h
        · rintro ⟨h1, -⟩
          rw [iha.2.mpr h1] at ha
          cases ha
      | ok u =>
        cases u
        simp only [wellPlaced, Bool.and_eq_true, ihb.2]
        have := iha.2.mp ha
        simp [this]
  | ifS t ih =>
    exact ⟨by simp [insideFor, wellPlaced, ih.1],
      by simp [outsideFor, wellPlaced, ih.2]⟩
  | ifElse t f iht ihf =>
    constructor
    · rw [show insideFor (.ifElse t f) =
        (match insideFor t with
         | .error e => .error e
         | .ok _ => insideFor f) from rfl]
      cases ht : insideFor t with
      | error e =>
        simp only [wellPlaced, Bool.and_eq_true]
        constructor
        · intro h; cases h
        · rintro ⟨h1, -⟩
          rw [iht.1.mpr h1] at ht
          cases ht
      | ok u =>
        cases u
        simp only [wellPlaced, Bool.and_eq_true, ihf.1]
        have := iht.1.mp ht
        simp [this]
    · rw [show outsideFor (.ifElse t f) =
        (match outsideFor t with
         | .error e => .error e
         | .ok _ => outsideFor f) from rfl]
      cases ht : outsideFor t with
      | error e =>
        simp only [wellPlaced, Bool.and_eq_true]
        constructor
        · intro h; cases h
        · rintro ⟨h1, -⟩
          rw [iht.2.mpr h1] at ht
          cases ht
      | ok u =>
        cases u
        simp only [wellPlaced, Bool.and_eq_true, ihf.2]
        have := iht.2.mp ht
        simp [this]

/-- C4. `validate_break_continue` accepts a statement tree iff every
`break`/`continue` in it is reachable from an enclosing `for` body without
crossing a function-definition boundary (a `def` body nested inside a
`for` is traversed in outside-loop mode); otherwise it returns one of the
two outside-loop errors. -/
theorem validate_break_continue_ok_iff (s : StmtM) :
    (validateBreakContinue s = .ok () ↔ wellPlaced false s = true) ∧
    (∀ e, validateBreakContinue s = .error e → wellPlaced false s = false) := by
  refine ⟨(validate_modes_ok_iff s).2, ?_⟩
  intro e herr
  rcases Bool.eq_false_or_eq_true (wellPlaced false s) with h | h
  · have hok := (validate_modes_ok_iff s).2.mpr h
    unfold validateBreakContinue at herr
    rw [hok] at herr
    cases herr
  · exact h

/-- Witness for C4: `for: break` validates; a bare `break`, and a `break`
only reachable through a `def` inside the loop, do not. -/
theorem validate_break_continue_ok_iff_witness :
    validateBreakContinue (.forS .breakS) = .ok () ∧
    wellPlaced false (.forS (.defS .breakS)) = false ∧
    validateBreakContinue (.forS (.defS .breakS)) =
      .error .breakOutsideLoop ∧
    validateBreakContinue .continueS = .error .continueOutsideLoop :=
  ⟨(validate_break_continue_ok_iff (.forS .breakS)).1.mpr (by decide),
   (validate_break_continue_ok_iff
      (.forS (.defS .breakS))).2 .breakOutsideLoop rfl,
   rfl, rfl⟩

/-- Modelled from the spec: `ParameterCompiled<E>` (fragment/def.rs is not
among the sources at hand) — the compiled parameter list mirrors the five
parameter kinds, with the default-value expression as payload of
`WithDefaultValue`. -/
inductive ParameterCompiled (E : Type) : Type where
  | normal (n : String)
  | withDefaultValue (n : String) (e : E)
  | noArgs
  | argsC (n : String)
  | kwargsC (n : String)
  deriving DecidableEq, Repr

/-- Modelled from the spec: `ParameterCompiled::map_expr` maps the
default-value expression, leaving everything else unchanged. -/
def ParameterCompiled.mapExpr {E F : Type} (f : E → F) :
    ParameterCompiled E → ParameterCompiled F
  | .normal n => .normal n
  | .withDefaultValue n e => .withDefaultValue n (f e)
  | .noArgs => .noArgs
  | .argsC n => .argsC n
  | .kwargsC n => .kwargsC n

/-- Does the parameter carry a default-value expression? -/
def hasDefault {E : Type} : ParameterCompiled E → Bool
  | .withDefaultValue _ _ => true
  | _ => false

/-- The default-value expressions of a parameter list, left to right. -/
def defaultExprs {E : Type} (ps : List (ParameterCompiled E)) : List E :=
  ps.filterMap fun p =>
    match p with
    | .withDefaultValue _ e => some e
    | _ => none

/-- `DefCompiled` (fragment/def.rs, the fields `write_bc` reads): function
name, compiled parameters and optional return-type expression; the `info`
payload is opaque to `write_bc` and dropped here. -/
structure DefCompiledM (E : Type) : Type where
  function_name : String
  params : List (ParameterCompiled E)
  return_type : Option E
  deriving DecidableEq, Repr

/-- An entry of the written bytecode stream: an instruction produced by
compiling an operand expression (`base`), or the single closure
construction instruction `InstrDef` with its `ArgPopsStack` pops count
and `InstrDefData` payload (eval/bc/compiler/def.rs). -/
inductive BcInstrM (B : Type) : Type where
  | base (i : B)
  | defInstr (pops : Nat) (function_name : String)
      (params : List (ParameterCompiled Nat)) (return_type : Option Nat)
  deriving DecidableEq, Repr

/-- The stateful parameter map of `write_bc`: for each parameter carrying
a default-value expression, compile it (`e.write_bc(bc)`, modelled by the
opaque `exprBc`), record the running `value_count` as its index and
increment the count.  Returns the rewritten parameters, the emitted
instructions and the final count. -/
def writeParamsBc {E B : Type} (exprBc : E → List B) :
    List (ParameterCompiled E) → Nat →
    (List (ParameterCompiled Nat) × List (BcInstrM B) × Nat)
  | [], c => ([], [], c)
  | p :: ps, c =>
      match p with
      | .withDefaultValue n e =>
          let rest := writeParamsBc exprBc ps (c + 1)
          (.withDefaultValue n c :: rest.1,
           (exprBc e).map .base ++ rest.2.1, rest.2.2)
      | .normal n =>
          let rest := writeParamsBc exprBc ps c
          (.normal n :: rest.1, rest.2.1, rest.2.2)
      | .noArgs =>
          let rest := writeParamsBc exprBc ps c
          (.noArgs :: rest.1, rest.2.1, rest.2.2)
      | .argsC n =>
          let rest := writeParamsBc exprBc ps c
          (.argsC n :: rest.1, rest.2.1, rest.2.2)
      | .kwargsC n =>
          let rest := writeParamsBc exprBc ps c
          (.kwargsC n :: rest.1, rest.2.1, rest.2.2)

/-- `DefCompiled::write_bc` (eval/bc/compiler/def.rs): compile every
default-value expression in declaration order (each replaced by its
operand index), then the return-type expression if present (receiving the
next index), then emit one `InstrDef` whose `ArgPopsStack` is the final
`value_count` and whose payload carries the rewritten parameter list and
return-type index. -/
def DefCompiledM.writeBc {E B : Type} (exprBc : E → List B)
    (d : DefCompiledM E) : List (BcInstrM B) :=
  let res := writeParamsBc exprBc d.params 0
  match d.return_type with
  | none =>
      res.2.1 ++ [.defInstr res.2.2 d.function_name res.1 none]
  | some t =>
      res.2.1 ++ (exprBc t).map .base ++
        [.defInstr (res.2.2 + 1) d.function_name res.1 (some res.2.2)]

/-- The claim's index assignment: the parameter at position `j` whose
default was compiled after `k` operand expressions had already been
compiled receives index `k`. -/
def indexedParamsFrom {E : Type} (k : Nat) :
    List (ParameterCompiled E) → List (ParameterCompiled Nat)
  | [] => []
  | p :: ps =>
      p.mapExpr (fun _ => k) ::
        indexedParamsFrom (k + (if hasDefault p then 1 else 0)) ps

section DefaultSimp
variable {E : Type} (n : String) (e : E) (ps : List (ParameterCompiled E))

@[simp] lemma defaultExprs_nil : defaultExprs ([] : List (ParameterCompiled E)) = [] := rfl
@[simp] lemma defaultExprs_cons_normal :
    defaultExprs (.normal n :: ps) = defaultExprs ps := rfl
@[simp] lemma defaultExprs_cons_default :
    defaultExprs (.withDefaultValue n e :: ps) = e :: defaultExprs ps := rfl
@[simp] lemma defaultExprs_cons_noArgs :
    defaultExprs (.noArgs :: ps) = defaultExprs ps := rfl
@[simp] lemma defaultExprs_cons_args :
    defaultExprs (.argsC n :: ps) = defaultExprs ps := rfl
@[simp] lemma defaultExprs_cons_kwargs :
    defaultExprs (.kwargsC n :: ps) = defaultExprs ps := rfl

end DefaultSimp

/-- `writeParamsBc` computed in closed form: the rewritten parameters are
the index-assigned ones, the instructions are the concatenated
compilations of the default expressions in order, and the final count
grows by the number of default expressions. -/
lemma writeParamsBc_eq {E B : Type} (exprBc : E → List B)
    (ps : List (ParameterCompiled E)) :
    ∀ c, writeParamsBc exprBc ps c =
      (indexedParamsFrom c ps,
       ((defaultExprs ps).map fun e => (exprBc e).map BcInstrM.base).flatten,
       c + (defaultExprs ps).length) := by
  induction ps with
  | nil => intro c; simp [writeParamsBc, indexedParamsFrom]
  | cons p ps ih =>
    intro c
    cases p with
    | withDefaultValue n e =>
      simp only [writeParamsBc, ih (c + 1), indexedParamsFrom,
        ParameterCompiled.mapExpr, hasDefault, if_true, Prod.mk.injEq,
        defaultExprs_cons_default, List.map_cons, List.flatten_cons,
        List.length_cons]
      exact ⟨trivial, trivial, by omega⟩
    | normal n =>
      simp only [writeParamsBc, ih c, indexedParamsFrom,
        ParameterCompiled.mapExpr, hasDefault, if_false, Prod.mk.injEq,
        defaultExprs_cons_normal, Nat.add_zero]
      trivial
    | noArgs =>
      simp only [writeParamsBc, ih c, indexedParamsFrom,
        ParameterCompiled.mapExpr, hasDefault, if_false, Prod.mk.injEq,
        defaultExprs_cons_noArgs, Nat.add_zero]
      trivial
    | argsC n =>
      simp only [writeParamsBc, ih c, indexedParamsFrom,
        ParameterCompiled.mapExpr, hasDefault, if_false, Prod.mk.injEq,
        defaultExprs_cons_args, Nat.add_zero]
      trivial
    | kwargsC n =>
      simp only [writeParamsBc, ih c, indexedParamsFrom,
        ParameterCompiled.mapExpr, hasDefault, if_false, Prod.mk.injEq,
        defaultExprs_cons_kwargs, Nat.add_zero]
      trivial

/-- Position-wise reading of the index assignment: the parameter at
position `j` has its default-value expression replaced by `k` plus the
number of default-carrying parameters strictly before position `j`. -/
lemma indexedParamsFrom_getElem {E : Type} (ps : List (ParameterCompiled E)) :
    ∀ k j, (indexedParamsFrom k ps)[j]? =
      (ps[j]?).map fun (p : ParameterCompiled E) =>
        p.mapExpr fun _ => k + (ps.take j).countP hasDefault := by
  induction ps with
  | nil => intro k j; simp [indexedParamsFrom]
  | cons p ps ih =>
    intro k j
    cases j with
    | zero => simp [indexedParamsFrom]
    | succ j =>
      simp only [indexedParamsFrom, List.getElem?_cons_succ, ih,
        List.take_succ_cons, List.countP_cons]
      rw [show (k + if hasDefault p then 1 else 0) +
          (ps.take j).countP hasDefault =
          k + ((ps.take j).countP hasDefault +
            if hasDefault p then 1 else 0) from by omega]

/-- C5. `write_bc` for a function definition emits, in order: the
compilations of the default-value expressions in left-to-right parameter
order, then the compilation of the return-type expression if present, then
one `InstrDef` whose pops count is exactly the number of operand
expressions compiled; in its payload each default-carrying parameter at
position `j` carries the index equal to the number of operand expressions
compiled before it, and the return type carries the next index after all
defaults. -/
theorem def_write_bc_layout {E B : Type} (exprBc : E → List B)
    (d : DefCompiledM E) :
    (d.writeBc exprBc =
       ((defaultExprs d.params).map fun e =>
           (exprBc e).map BcInstrM.base).flatten
       ++ (match d.return_type with
           | none => []
           | some t => (exprBc t).map BcInstrM.base)
       ++ [BcInstrM.defInstr
             ((defaultExprs d.params).length +
               match d.return_type with
               | none => 0
               | some _ => 1)
             d.function_name
             (indexedParamsFrom 0 d.params)
             (match d.return_type with
              | none => none
              | some _ => some (defaultExprs d.params).length)]) ∧
    (∀ j, (indexedParamsFrom 0 d.params)[j]? =
       (d.params[j]?).map fun (p : ParameterCompiled E) =>
         p.mapExpr fun _ => (d.params.take j).countP hasDefault) := by
  constructor
  · unfold DefCompiledM.writeBc
    rw [writeParamsBc_eq]
    cases d.return_type with
    | none => simp
    | some t => simp
  · intro j
    rw [indexedParamsFrom_getElem]
    simp

/-- Modelled from the spec: a constant value the finalization pass can
resolve a module binding to — a container of known emptiness, or a
boolean (the comprehension compiler of eval/fragment and its freeze-time
optimization are not among the sources at hand; only their tests are). -/
inductive ConstValM : Type where
  | container (isEmpty : Bool)
  | boolean (b : Bool)
  deriving DecidableEq, Repr

/-- Modelled from the spec: the constant-folding oracle, mapping a module
binding name to its resolved constant if known. -/
abbrev OracleM : Type := String → Option ConstValM

/-- Modelled from the spec: the source iterable of a comprehension — a
literal container whose emptiness is syntactically known, or a reference
to a module binding. -/
inductive SrcM : Type where
  | lit (isEmpty : Bool)
  | ref (name : String)
  deriving DecidableEq, Repr

/-- Modelled from the spec: one filter condition — a literal boolean or a
reference to a module binding. -/
inductive CondM : Type where
  | lit (b : Bool)
  | ref (name : String)
  deriving DecidableEq, Repr

/-- Modelled from the spec: a single-clause comprehension
`[x for x in src if conds...]`. -/
structure ComprM : Type where
  src : SrcM
  conds : List CondM
  deriving DecidableEq, Repr

/-- The opcodes observed by the comprehension-compilation tests
(eval/tests/bc/compr.rs). -/
inductive BcOpM : Type where
  | listNew
  | loadLocal
  | forLoop
  | storeLocal
  | comprListAppend
  | continueOp
  | ret
  | condBrSkip
  | brSkip
  deriving DecidableEq, Repr

/-- Is the source iterable provably empty under the oracle? -/
def srcEmptyO (o : OracleM) : SrcM → Bool
  | .lit isEmpty => isEmpty
  | .ref n =>
      match o n with
      | some (.container isEmpty) => isEmpty
      | _ => false

/-- The constant value of a filter condition under the oracle, if known. -/
def condConstO (o : OracleM) : CondM → Option Bool
  | .lit b => some b
  | .ref n =>
      match o n with
      | some (.boolean b) => some b
      | _ => none

/-- Modelled from the spec: compile one filter clause — a condition known
`True` is elided, one known `False` becomes an unconditional skip, an
unknown one an "if false, skip to next iteration" branch. -/
def compileCond (o : OracleM) (c : CondM) : List BcOpM :=
  match condConstO o c with
  | some true => []
  | some false => [.brSkip]
  | none => [.condBrSkip]

/-- Modelled from the spec: comprehension compilation with the facts of
oracle `o` available — if the source is provably empty, only the empty
result container and the return are emitted (no loop); otherwise the
general loop with each filter clause compiled by `compileCond`. -/
def compileComprO (o : OracleM) (c : ComprM) : List BcOpM :=
  if srcEmptyO o c.src then [.listNew, .ret]
  else
    [.listNew, .loadLocal, .forLoop, .storeLocal] ++
    (c.conds.map (compileCond o)).flatten ++
    [.loadLocal, .comprListAppend, .continueOp, .ret]

/-- The oracle of the initial compilation: no whole-program constants are
known yet, only syntactic literals. -/
def noFacts : OracleM := fun _ => none

/-- Initial (first-pass) compilation: only syntactic facts. -/
def compileCompr (c : ComprM) : List BcOpM := compileComprO noFacts c

/-- Modelled from the spec: the finalization rewrite of the source, once
whole-program constants are resolved. -/
def resolveSrc (o : OracleM) : SrcM → SrcM
  | .lit isEmpty => .lit isEmpty
  | .ref n =>
      match o n with
      | some (.container isEmpty) => .lit isEmpty
      | _ => .ref n

/-- Modelled from the spec: the finalization rewrite of one condition. -/
def resolveCond (o : OracleM) : CondM → CondM
  | .lit b => .lit b
  | .ref n =>
      match o n with
      | some (.boolean b) => .lit b
      | _ => .ref n

/-- Modelled from the spec: the finalization pass substitutes resolved
constants into the comprehension and re-applies the same elision logic
(the second pass is `compileCompr ∘ resolveCompr o`). -/
def resolveCompr (o : OracleM) (c : ComprM) : ComprM :=
  { src := resolveSrc o c.src, conds := c.conds.map (resolveCond o) }

lemma srcEmptyO_resolve (o : OracleM) (s : SrcM) :
    srcEmptyO noFacts (resolveSrc o s) = srcEmptyO o s := by
  cases s with
  | lit isEmpty => rfl
  | ref n =>
    cases h : o n with
    | none => simp [resolveSrc, srcEmptyO, h, noFacts]
    | some v =>
      cases v with
      | container isEmpty => simp [resolveSrc, srcEmptyO, h]
      | boolean b => simp [resolveSrc, srcEmptyO, h, noFacts]

lemma compileCond_resolve (o : OracleM) (c : CondM) :
    compileCond noFacts (resolveCond o c) = compileCond o c := by
  cases c with
  | lit b => rfl
  | ref n =>
    cases h : o n with
    | none => simp [resolveCond, compileCond, condConstO, h, noFacts]
    | some v =>
      cases v with
      | container isEmpty =>
        simp [resolveCond, compileCond, condConstO, h, noFacts]
      | boolean b => simp [resolveCond, compileCond, condConstO, h]

/-- C6. Re-compiling after the constant-finalization rewrite produces
exactly the instruction sequence of a single compilation with all facts
known from the start; in particular a comprehension over a provably empty
source compiles to allocate-empty-container then return with no loop
instructions, and a filter condition provably `True` compiles to the loop
with the skip branch elided — identically whether the fact is a literal of
the first pass or resolved only at finalization. -/
theorem compr_two_pass_identical :
    (∀ (o : OracleM) (c : ComprM),
       compileCompr (resolveCompr o c) = compileComprO o c) ∧
    compileCompr ⟨.lit true, []⟩ = [.listNew, .ret] ∧
    compileCompr
        (resolveCompr
          (fun n => if n = "D" then some (.container true) else none)
          ⟨.ref "D", []⟩) = [.listNew, .ret] ∧
    compileCompr ⟨.ref "y", [.lit true]⟩ =
      [.listNew, .loadLocal, .forLoop, .storeLocal,
       .loadLocal, .comprListAppend, .continueOp, .ret] ∧
    compileCompr
        (resolveCompr
          (fun n => if n = "C" then some (.boolean true) else none)
          ⟨.ref "y", [.ref "C"]⟩) =
      [.listNew, .loadLocal, .forLoop, .storeLocal,
       .loadLocal, .comprListAppend, .continueOp, .ret] := by
  refine ⟨?_, rfl, by decide, rfl, by decide⟩
  intro o c
  unfold compileCompr compileComprO resolveCompr
  simp only [srcEmptyO_resolve]
  cases hsrc : srcEmptyO o c.src with
  | true => simp [hsrc]
  | false =>
    have hfun : compileCond noFacts ∘ resolveCond o = compileCond o :=
      funext (compileCond_resolve o)
    simp [hsrc, List.map_map, hfun]

/-- `BcInstrStat` (eval/runtime/bc_profile.rs): per-opcode sample count
and total time; `Duration` is modelled in nanoseconds. -/
structure BcInstrStat : Type where
  count : Nat
  total_time : Nat
  deriving DecidableEq, Repr

/-- `BcInstrStat::default()`. -/
def BcInstrStat.zero : BcInstrStat := ⟨0, 0⟩

/-- `BcInstrStat::avg_time` (bc_profile.rs): zero when the count is zero,
otherwise nanoseconds divided by count. -/
def BcInstrStat.avg_time (s : BcInstrStat) : Nat :=
  if s.count = 0 then 0 else s.total_time / s.count

/-- Fieldwise sum of stats (the `Sum<&BcInstrStat>` impl). -/
def BcInstrStat.add (a b : BcInstrStat) : BcInstrStat :=
  ⟨a.count + b.count, a.total_time + b.total_time⟩

/-- `BcProfileData` (bc_profile.rs): per-opcode profiling state.  Opcodes
are `Fin nOps` (`BcOpcode::COUNT` is the build-time `nOps`); wall-clock
instants are naturals, and `Instant::now()` becomes the explicit `now`
argument of `before_instr`. -/
structure BcProfileData (nOps : Nat) : Type where
  last : Option (Fin nOps × Nat)
  by_instr : Fin nOps → BcInstrStat

/-- `BcProfileData::default()`. -/
def BcProfileData.init (nOps : Nat) : BcProfileData nOps :=
  ⟨none, fun _ => BcInstrStat.zero⟩

/-- `BcProfileData::before_instr` (bc_profile.rs): if a previous
(opcode, instant) pair exists, attribute the elapsed time since it
(`saturating_duration_since` is truncated subtraction on naturals) and one
count to the previous opcode; then record (opcode, now) as the new
previous.  The very first call of a session records no sample. -/
def BcProfileData.before_instr {nOps : Nat} (st : BcProfileData nOps)
    (opcode : Fin nOps) (now : Nat) : BcProfileData nOps :=
  match st.last with
  | some (lastOp, lastTime) =>
      { last := some (opcode, now),
        by_instr := Function.update st.by_instr lastOp
          ⟨(st.by_instr lastOp).count + 1,
           (st.by_instr lastOp).total_time + (now - lastTime)⟩ }
  | none => { st with last := some (opcode, now) }

/-- A scripted session: one `before_instr` call per (opcode, timestamp). -/
def BcProfileData.run {nOps : Nat} (st : BcProfileData nOps)
    (calls : List (Fin nOps × Nat)) : BcProfileData nOps :=
  calls.foldl (fun st c => st.before_instr c.1 c.2) st

/-- Total sample count accumulated over all opcodes. -/
def totalCount {nOps : Nat} (st : BcProfileData nOps) : Nat :=
  ∑ o : Fin nOps, (st.by_instr o).count

lemma totalCount_before_instr {nOps : Nat} (st : BcProfileData nOps)
    (opcode : Fin nOps) (now : Nat) :
    totalCount (st.before_instr opcode now) =
      totalCount st + (if st.last.isSome then 1 else 0) := by
  unfold BcProfileData.before_instr
  cases hlast : st.last with
  | none => simp [totalCount]
  | some c =>
    obtain ⟨lop, lt⟩ := c
    simp only [Option.isSome_some, if_true]
    unfold totalCount
    have hfun : (fun o =>
        ((Function.update st.by_instr lop
          ⟨(st.by_instr lop).count + 1,
           (st.by_instr lop).total_time + (now - lt)⟩) o).count) =
        Function.update (fun o => (st.by_instr o).count) lop
          ((st.by_instr lop).count + 1) := by
      funext o
      by_cases ho : o = lop
      · subst ho; simp
      · simp [Function.update, ho]
    show (∑ o : Fin nOps, ((Function.update st.by_instr lop _) o).count) = _
    rw [hfun]
    rw [Finset.sum_update_of_mem (Finset.mem_univ lop)]
    rw [← Finset.add_sum_erase Finset.univ _ (Finset.mem_univ lop)]
    rw [Finset.erase_eq]
    omega

lemma totalCount_run {nOps : Nat} (calls : List (Fin nOps × Nat)) :
    ∀ st : BcProfileData nOps,
    totalCount (st.run calls) =
      totalCount st +
        (if st.last.isSome then calls.length else calls.length - 1) := by
  induction calls with
  | nil => intro st; cases h : st.last <;> simp [BcProfileData.run, h]
  | cons c cs ih =>
    intro st
    have hrun : st.run (c :: cs) = (st.before_instr c.1 c.2).run cs := rfl
    rw [hrun, ih, totalCount_before_instr]
    have hsome : (st.before_instr c.1 c.2).last = some (c.1, c.2) := by
      unfold BcProfileData.before_instr
      cases st.last with
      | none => rfl
      | some p => obtain ⟨a, b⟩ := p; rfl
    rw [hsome]
    cases h : st.last with
    | none => simp [h]
    | some p =>
      simp only [h, Option.isSome_some, if_true, List.length_cons]
      omega

/-- C7. Per-opcode profiling: a session of `n` scripted `before_instr`
calls records exactly `n - 1` samples in total; the very first call
records no sample (the histogram is untouched); and every subsequent call
attributes the elapsed time since the previous call plus one count to the
*previous* call's opcode, leaving every other opcode untouched and
recording the current (opcode, now) as the new previous. -/
theorem bc_profile_per_opcode (nOps : Nat) :
    (∀ calls : List (Fin nOps × Nat),
       totalCount ((BcProfileData.init nOps).run calls) =
         calls.length - 1) ∧
    (∀ (st : BcProfileData nOps) (op : Fin nOps) (now : Nat),
       st.last = none →
       (st.before_instr op now).by_instr = st.by_instr ∧
       (st.before_instr op now).last = some (op, now)) ∧
    (∀ (st : BcProfileData nOps) (op lop : Fin nOps) (now lt : Nat),
       st.last = some (lop, lt) →
       (st.before_instr op now).by_instr lop =
         ⟨(st.by_instr lop).count + 1,
          (st.by_instr lop).total_time + (now - lt)⟩ ∧
       (∀ o, o ≠ lop → (st.before_instr op now).by_instr o =
          st.by_instr o) ∧
       (st.before_instr op now).last = some (op, now)) := by
  refine ⟨?_, ?_, ?_⟩
  · intro calls
    rw [totalCount_run]
    have h0 : totalCount (BcProfileData.init nOps) = 0 := by
      simp [totalCount, BcProfileData.init, BcInstrStat.zero]
    rw [h0]
    simp [BcProfileData.init]
  · intro st op now hnone
    unfold BcProfileData.before_instr
    rw [hnone]
    exact ⟨rfl, rfl⟩
  · intro st op lop now lt hsome
    unfold BcProfileData.before_instr
    rw [hsome]
    refine ⟨by simp, ?_, rfl⟩
    intro o ho
    simp [Function.update, ho]

/-- Witness for C7 at a concrete session over two opcodes: three calls
yield two samples; the first call leaves the histogram untouched; the
second call attributes elapsed 15 and one count to opcode 0. -/
theorem bc_profile_per_opcode_witness :
    totalCount ((BcProfileData.init 2).run
      [((0 : Fin 2), 10), ((1 : Fin 2), 25), ((0 : Fin 2), 30)]) = 2 ∧
    ((BcProfileData.init 2).before_instr (0 : Fin 2) 10).by_instr =
      (BcProfileData.init 2).by_instr ∧
    (((BcProfileData.init 2).before_instr (0 : Fin 2) 10).before_instr
        (1 : Fin 2) 25).by_instr (0 : Fin 2) = ⟨1, 15⟩ :=
  ⟨(bc_profile_per_opcode 2).1
     [((0 : Fin 2), 10), ((1 : Fin 2), 25), ((0 : Fin 2), 30)],
   ((bc_profile_per_opcode 2).2.1 (BcProfileData.init 2) (0 : Fin 2) 10
      rfl).1,
   by
    have h := ((bc_profile_per_opcode 2).2.2
      ((BcProfileData.init 2).before_instr (0 : Fin 2) 10)
      (1 : Fin 2) (0 : Fin 2) 25 10 rfl).1
    rw [h]
    simp [BcProfileData.before_instr, BcProfileData.init, BcInstrStat.zero]⟩

/-- `BcInstrPairsStat` is just a count; `BcPairsProfileData`
(bc_profile.rs): per-adjacent-pair profiling state.  The `HashMap` keyed
by `[BcOpcode; 2]` is modelled as a total count function with absent keys
at zero (`entry(..).or_default()`). -/
structure BcPairsProfileData (nOps : Nat) : Type where
  last : Option (Fin nOps)
  by_instr : Fin nOps × Fin nOps → Nat

/-- `BcPairsProfileData::default()`. -/
def BcPairsProfileData.init (nOps : Nat) : BcPairsProfileData nOps :=
  ⟨none, fun _ => 0⟩

/-- `BcPairsProfileData::before_instr` (bc_profile.rs): if a previous
opcode exists, increment the count of the ordered pair (previous,
current); record current as the new previous. -/
def BcPairsProfileData.before_instr {nOps : Nat}
    (st : BcPairsProfileData nOps) (opcode : Fin nOps) :
    BcPairsProfileData nOps :=
  match st.last with
  | some lastOp =>
      { last := some opcode,
        by_instr := Function.update st.by_instr (lastOp, opcode)
          (st.by_instr (lastOp, opcode) + 1) }
  | none => { st with last := some opcode }

/-- `BcProfileData::gen_csv` (bc_profile.rs) at the data level: the rows
(one per opcode, with its accumulated stat) sorted stably by the key
`u64::MAX - count` — i.e. by descending count — and the `TOTAL` aggregate
summing all rows.  CSV text formatting is not modelled. -/
def BcProfileData.gen_csv {nOps : Nat} (st : BcProfileData nOps) :
    BcInstrStat × List (Fin nOps × BcInstrStat) :=
  let by_instr := (List.finRange nOps).map fun o => (o, st.by_instr o)
  let sorted := by_instr.mergeSort fun a b => b.2.count ≤ a.2.count
  let total := (sorted.map Prod.snd).foldl BcInstrStat.add BcInstrStat.zero
  (total, sorted)

/-- Lexicographic order on opcode pairs (the derived `Ord` of
`[BcOpcode; 2]`). -/
def pairLe {nOps : Nat} (x y : Fin nOps × Fin nOps) : Bool :=
  (x.1 < y.1) || (x.1 = y.1 && x.2 ≤ y.2)

/-- `BcPairsProfileData::gen_csv` (bc_profile.rs) at the data level: one
row per observed pair (the map holds exactly the pairs with nonzero
count), sorted by descending count with ties broken by the pair's natural
order; the `Count / Total` text column is not modelled. -/
def BcPairsProfileData.gen_csv {nOps : Nat}
    (st : BcPairsProfileData nOps) :
    List ((Fin nOps × Fin nOps) × Nat) :=
  let rows :=
    ((List.finRange nOps).flatMap fun a =>
      (List.finRange nOps).map fun b => ((a, b), st.by_instr (a, b))).filter
      fun r => r.2 ≠ 0
  rows.mergeSort fun x y => (y.2 < x.2) || (y.2 = x.2 && pairLe x.1 y.1)

/-- `BcProfileDataMode` (bc_profile.rs). -/
inductive BcProfileDataMode (nOps : Nat) : Type where
  | bc (d : BcProfileData nOps)
  | bcPairs (d : BcPairsProfileData nOps)
  | disabled

/-- `BcProfile` (bc_profile.rs). -/
structure BcProfile (nOps : Nat) : Type where
  data : BcProfileDataMode nOps

/-- `EvaluatorError` (eval/runtime/evaluator.rs, not among the sources):
modelled from the spec with the profiler's error plus a stand-in for the
evaluator's other error kinds, so that "only this error" is not vacuous. -/
inductive EvaluatorErrorM : Type where
  | bcProfilingNotEnabled
  | otherEvaluatorError
  deriving DecidableEq, Repr

/-- The report a `gen_csv` call produces, at the data level. -/
inductive BcReport (nOps : Nat) : Type where
  | perOpcode (total : BcInstrStat)
      (rows : List (Fin nOps × BcInstrStat))
  | perPairs (rows : List ((Fin nOps × Fin nOps) × Nat))

/-- `BcProfile::new` (bc_profile.rs). -/
def BcProfile.new (nOps : Nat) : BcProfile nOps := ⟨.disabled⟩

/-- `BcProfile::enable_1` (bc_profile.rs): reset to per-opcode mode. -/
def BcProfile.enable_1 {nOps : Nat} (_p : BcProfile nOps) :
    BcProfile nOps := ⟨.bc (BcProfileData.init nOps)⟩

/-- `BcProfile::enable_2` (bc_profile.rs): reset to per-pair mode. -/
def BcProfile.enable_2 {nOps : Nat} (_p : BcProfile nOps) :
    BcProfile nOps := ⟨.bcPairs (BcPairsProfileData.init nOps)⟩

/-- `BcProfile::enabled` (bc_profile.rs). -/
def BcProfile.enabled {nOps : Nat} (p : BcProfile nOps) : Bool :=
  match p.data with
  | .bc _ => true
  | .bcPairs _ => true
  | .disabled => false

/-- `BcProfile::gen_csv` (bc_profile.rs): delegate to the mode's report,
or fail with `BcProfilingNotEnabled` when disabled. -/
def BcProfile.gen_csv {nOps : Nat} (p : BcProfile nOps) :
    Except EvaluatorErrorM (BcReport nOps) :=
  match p.data with
  | .bc d => .ok (.perOpcode d.gen_csv.1 d.gen_csv.2)
  | .bcPairs d => .ok (.perPairs d.gen_csv)
  | .disabled => .error .bcProfilingNotEnabled

/-- Folding the fieldwise stat sum is the pair of field sums. -/
lemma foldl_add_eq (l : List BcInstrStat) :
    ∀ acc, l.foldl BcInstrStat.add acc =
      ⟨acc.count + (l.map BcInstrStat.count).sum,
       acc.total_time + (l.map BcInstrStat.total_time).sum⟩ := by
  induction l with
  | nil => intro acc; simp
  | cons s l ih =>
    intro acc
    rw [List.foldl_cons, ih]
    simp [BcInstrStat.add]
    omega

/-- C8. Report generation fails iff the profiler is Disabled, and the
only possible error is *profiling-not-enabled*; in per-opcode mode it
returns the complete accumulated data — rows are a permutation of every
opcode with its accumulated stat and the aggregate is the fieldwise sum
over all opcodes — and in per-pair mode one row per observed (nonzero)
pair, each carrying exactly the accumulated count. -/
theorem bc_profile_gen_report (nOps : Nat) (p : BcProfile nOps) :
    ((∃ e, p.gen_csv = .error e) ↔ p.data = .disabled) ∧
    (∀ e, p.gen_csv = .error e → e = .bcProfilingNotEnabled) ∧
    (∀ d, p.data = .bc d →
       p.gen_csv = .ok (.perOpcode d.gen_csv.1 d.gen_csv.2) ∧
       List.Perm d.gen_csv.2
         ((List.finRange nOps).map fun o => (o, d.by_instr o)) ∧
       d.gen_csv.1 =
         ⟨((List.finRange nOps).map fun o => (d.by_instr o).count).sum,
          ((List.finRange nOps).map fun o =>
            (d.by_instr o).total_time).sum⟩) ∧
    (∀ d, p.data = .bcPairs d →
       p.gen_csv = .ok (.perPairs d.gen_csv) ∧
       (∀ pr : Fin nOps × Fin nOps,
          ((pr, d.by_instr pr) ∈ d.gen_csv ↔ d.by_instr pr ≠ 0)) ∧
       (∀ row ∈ d.gen_csv, row.2 = d.by_instr row.1 ∧ row.2 ≠ 0)) := by
  obtain ⟨mode⟩ := p
  refine ⟨?_, ?_, ?_, ?_⟩
  · cases mode with
    | bc d =>
      simp only [BcProfile.gen_csv]
      constructor
      · rintro ⟨e, he⟩; cases he
      · intro h; cases h
    | bcPairs d =>
      simp only [BcProfile.gen_csv]
      constructor
      · rintro ⟨e, he⟩; cases he
      · intro h; cases h
    | disabled =>
      simp only [BcProfile.gen_csv]
      exact ⟨fun _ => trivial, fun _ => ⟨.bcProfilingNotEnabled, rfl⟩⟩
  · intro e he
    cases mode with
    | bc d => cases he
    | bcPairs d => cases he
    | disabled =>
      simp only [BcProfile.gen_csv] at he
      cases he
      rfl
  · intro d hd
    cases mode with
    | bcPairs d2 => cases hd
    | disabled => cases hd
    | bc d2 =>
      obtain rfl : d2 = d := by injection hd
      refine ⟨rfl, ?_, ?_⟩
      · simp only [BcProfileData.gen_csv]
        exact List.mergeSort_perm _ _
      · simp only [BcProfileData.gen_csv]
        rw [foldl_add_eq]
        have hperm : List.Perm
            ((((List.finRange nOps).map fun o =>
              (o, d2.by_instr o)).mergeSort
                fun a b : Fin nOps × BcInstrStat =>
                  b.2.count ≤ a.2.count).map Prod.snd)
            (((List.finRange nOps).map fun o =>
              (o, d2.by_instr o)).map Prod.snd) :=
          (List.mergeSort_perm _ _).map Prod.snd
        have hcount := (hperm.map BcInstrStat.count).sum_eq
        have htime := (hperm.map BcInstrStat.total_time).sum_eq
        rw [List.map_map] at hcount htime
        simp only [BcInstrStat.zero, Nat.zero_add]
        rw [List.map_map, List.map_map, hcount, htime]
        simp only [List.map_map]
        have h1 : (BcInstrStat.count ∘ Prod.snd ∘
            fun o : Fin nOps => (o, d2.by_instr o)) =
            fun o : Fin nOps => (d2.by_instr o).count := rfl
        have h2 : (BcInstrStat.total_time ∘ Prod.snd ∘
            fun o : Fin nOps => (o, d2.by_instr o)) =
            fun o : Fin nOps => (d2.by_instr o).total_time := rfl
        rw [h1, h2]
  · intro d hd
    cases mode with
    | bc d2 => cases hd
    | disabled => cases hd
    | bcPairs d2 =>
      obtain rfl : d2 = d := by injection hd
      refine ⟨rfl, ?_, ?_⟩
      · intro pr
        simp only [BcPairsProfileData.gen_csv, List.mem_mergeSort,
          List.mem_filter, List.mem_flatMap, List.mem_map,
          List.mem_finRange, true_and, decide_eq_true_eq]
        constructor
        · rintro ⟨-, hne⟩; exact hne
        · intro hne
          exact ⟨⟨pr.1, pr.2, rfl⟩, hne⟩
      · intro row hrow
        simp only [BcPairsProfileData.gen_csv, List.mem_mergeSort,
          List.mem_filter, List.mem_flatMap, List.mem_map,
          List.mem_finRange, true_and, decide_eq_true_eq] at hrow
        obtain ⟨⟨a, b, hab⟩, hne⟩ := hrow
        exact ⟨by rw [← hab], hne⟩

/-- Witness for C8: with one opcode, a fresh (Disabled) profiler fails
with *profiling-not-enabled*, and each enabled mode returns its report. -/
theorem bc_profile_gen_report_witness :
    (BcProfile.new 1).gen_csv = .error .bcProfilingNotEnabled ∧
    ((BcProfile.new 1).enable_1.gen_csv =
      .ok (.perOpcode (BcProfileData.init 1).gen_csv.1
        (BcProfileData.init 1).gen_csv.2)) ∧
    ((BcProfile.new 1).enable_2.gen_csv =
      .ok (.perPairs (BcPairsProfileData.init 1).gen_csv)) :=
  ⟨rfl,
   ((bc_profile_gen_report 1 ((BcProfile.new 1).enable_1)).2.2.1
      (BcProfileData.init 1) rfl).1,
   ((bc_profile_gen_report 1 ((BcProfile.new 1).enable_2)).2.2.2
      (BcPairsProfileData.init 1) rfl).1⟩

/-- A model of Starlark values sufficient for the tuple operations:
integers, strings, tuples, and lists — a list being mutable and therefore
unhashable, which gives `get_hash` a genuine failure case. -/
inductive SVal : Type where
  | int (i : Int)
  | str (s : String)
  | tup (xs : List SVal)
  | listV (xs : List SVal)

/-- `ValueError` (values/error.rs, not among the sources): the kinds the
tuple operations can produce. -/
inductive ValueErrorM : Type where
  | incorrectParameterType
  | unhashableValue
  deriving DecidableEq, Repr

/-- `Tuple::from_value` (values/types/tuple.rs): the element list iff the
value is a tuple (the frozen/mutable coercion is invisible at this
level). -/
def fromValueTuple : SVal → Option (List SVal)
  | .tup xs => some xs
  | _ => none

mutual

/-- Modelled from the spec: `Value::equals` (a collaborator outside the
sources at hand) — equality by kind; integers and strings structurally,
tuples via `TupleGen::equals` below, lists elementwise like tuples. -/
def SVal.equals : SVal → SVal → Except ValueErrorM Bool
  | .int a, .int b => .ok (decide (a = b))
  | .int _, .str _ => .ok false
  | .int _, .tup _ => .ok false
  | .int _, .listV _ => .ok false
  | .str a, .str b => .ok (decide (a = b))
  | .str _, .int _ => .ok false
  | .str _, .tup _ => .ok false
  | .str _, .listV _ => .ok false
  | .tup xs, other => tupleEquals xs other
  | .listV xs, .listV ys => equalsSlice xs ys
  | .listV _, .int _ => .ok false
  | .listV _, .str _ => .ok false
  | .listV _, .tup _ => .ok false
termination_by v w => (sizeOf v, 3)

/-- `TupleGen::equals` (values/types/tuple.rs): `Ok(false)` when the
other value is not a tuple, otherwise `equals_slice` on the contents. -/
def tupleEquals (xs : List SVal) (other : SVal) :
    Except ValueErrorM Bool :=
  match fromValueTuple other with
  | none => .ok false
  | some ys => equalsSlice xs ys
termination_by (sizeOf xs, 2)

/-- Modelled from the spec: `equals_slice` (values/comparison.rs, not
among the sources) — `true` only if the lengths match and all pairs are
equal, short-circuiting on the first unequal pair. -/
def equalsSlice (xs ys : List SVal) : Except ValueErrorM Bool :=
  if xs.length ≠ ys.length then .ok false
  else equalsElems xs ys
termination_by (sizeOf xs, 1)

/-- The elementwise walk of `equals_slice` (lengths already equal). -/
def equalsElems : List SVal → List SVal → Except ValueErrorM Bool
  | [], _ => .ok true
  | _ :: _, [] => .ok true
  | x :: xs, y :: ys =>
      match x.equals y with
      | .error e => .error e
      | .ok true => equalsElems xs ys
      | .ok false => .ok false
termination_by xs ys => (sizeOf xs, 0)

end

/-- Modelled from the spec: the order-sensitive hash combination — one
`write_u64` of the `DefaultHasher` fold (`DefaultHasher` itself is
std-library code; any deterministic order-sensitive fold realises the
contract the claims use). -/
def hashCombine (acc h : Nat) : Nat := acc * 1000003 + h + 1

mutual

/-- Modelled from the spec: `Value::get_hash` (a collaborator outside the
sources at hand) — integers and strings hash deterministically, a tuple
hashes by folding its element hashes in order (`TupleGen::get_hash`,
values/types/tuple.rs: `for v in content { s.write_u64(v.get_hash()?) }`),
and a list is mutable and unhashable. -/
def SVal.getHash : SVal → Except ValueErrorM Nat
  | .int a => .ok a.natAbs
  | .str s => .ok s.length
  | .tup xs => getHashFold xs 0
  | .listV _ => .error .unhashableValue
termination_by v => (sizeOf v, 1)

/-- The hasher fold over a tuple's elements, propagating the first
element-hash failure. -/
def getHashFold : List SVal → Nat → Except ValueErrorM Nat
  | [], acc => .ok acc
  | x :: xs, acc =>
      match x.getHash with
      | .error e => .error e
      | .ok h => getHashFold xs (hashCombine acc h)
termination_by xs acc => (sizeOf xs, 0)

end

/-- `TupleGen::get_hash` (values/types/tuple.rs) on a content list. -/
def tupleGetHash (xs : List SVal) : Except ValueErrorM Nat :=
  getHashFold xs 0

/-- `Value::unpack_int` (a collaborator): the machine integer iff the
value is an int (the `i32` width plays no role in the claims). -/
def unpack_int : SVal → Option Int
  | .int i => some i
  | _ => none

/-- `TupleGen::mul` (values/types/tuple.rs): `for _i in 0..l` extends the
result with the content once per iteration — `max l 0` iterations, i.e.
`Int.toNat` repetitions; a non-int multiplier is
`IncorrectParameterType`. -/
def tupleMul (xs : List SVal) (other : SVal) :
    Except ValueErrorM (List SVal) :=
  match unpack_int other with
  | some l => .ok (List.flatten (List.replicate l.toNat xs))
  | none => .error .incorrectParameterType

/-- The elementwise walk returns `true` exactly on equal lists, given the
element-level characterization of `equals` (lengths already match). -/
lemma equalsElems_true_iff (xs : List SVal)
    (helem : ∀ x ∈ xs, ∀ w, x.equals w = .ok true ↔ x = w) :
    ∀ ys, xs.length = ys.length →
      (equalsElems xs ys = .ok true ↔ xs = ys) := by
  induction xs with
  | nil =>
    intro ys hlen
    cases ys with
    | nil => simp [equalsElems]
    | cons y ys => simp at hlen
  | cons x xs ih =>
    intro ys hlen
    cases ys with
    | nil => simp at hlen
    | cons y ys =>
      have heq : equalsElems (x :: xs) (y :: ys) =
          match x.equals y with
          | .error e => .error e
          | .ok true => equalsElems xs ys
          | .ok false => .ok false := by
        simp [equalsElems]
      rw [heq]
      have hx := helem x (List.mem_cons_self _ _) y
      cases hxy : x.equals y with
      | error e =>
        constructor
        · intro h; cases h
        · intro h
          obtain ⟨rfl, -⟩ := List.cons.injEq .. ▸ h
          rw [hx.mpr rfl] at hxy
          cases hxy
      | ok b =>
        cases b with
        | true =>
          have hlen2 : xs.length = ys.length := by
            simpa using hlen
          rw [ih (fun x hx => helem x (List.mem_cons_of_mem _ hx)) ys hlen2]
          have hxy2 : x = y := hx.mp hxy
          subst hxy2
          simp
        | false =>
          constructor
          · intro h; cases h
          · intro h
            have hx2 : x = y := by
              have := List.cons.injEq x xs y ys ▸ h
              exact this.1
            rw [hx.mpr hx2] at hxy
            cases hxy

/-- `equals_slice` returns `true` exactly on equal lists, given the
element-level characterization. -/
lemma equalsSlice_true_iff (xs : List SVal)
    (helem : ∀ x ∈ xs, ∀ w, x.equals w = .ok true ↔ x = w)
    (ys : List SVal) : equalsSlice xs ys = .ok true ↔ xs = ys := by
  unfold equalsSlice
  by_cases h : xs.length = ys.length
  · rw [if_neg (by simp [h])]
    exact equalsElems_true_iff xs helem ys h
  · rw [if_pos (by simpa using h)]
    constructor
    · intro hc; cases hc
    · intro hc
      subst hc
      exact absurd rfl h

/-- `Value::equals` in the model returns `true` exactly on equal values
(strong induction on the size of the left value). -/
lemma equals_true_iff_eq_aux :
    ∀ (n : Nat) (v w : SVal), sizeOf v ≤ n →
      (SVal.equals v w = .ok true ↔ v = w) := by
  intro n
  induction n using Nat.strong_induction_on with
  | _ n ih =>
    intro v w hv
    cases v with
    | int a => cases w <;> simp [SVal.equals]
    | str s => cases w <;> simp [SVal.equals]
    | tup xs =>
      have helem : ∀ x ∈ xs, ∀ u, x.equals u = .ok true ↔ x = u := by
        intro x hx u
        have h1 : sizeOf x < sizeOf xs := List.sizeOf_lt_of_mem hx
        have h2 : sizeOf (SVal.tup xs) = 1 + sizeOf xs := by simp
        exact ih (sizeOf x) (by omega) x u (Nat.le_refl _)
      cases w with
      | tup ys =>
        have hstep : SVal.equals (.tup xs) (.tup ys) = equalsSlice xs ys := by
          simp [SVal.equals, tupleEquals, fromValueTuple]
        rw [hstep, equalsSlice_true_iff xs helem ys]
        simp
      | int a => simp [SVal.equals, tupleEquals, fromValueTuple]
      | str s => simp [SVal.equals, tupleEquals, fromValueTuple]
      | listV ys => simp [SVal.equals, tupleEquals, fromValueTuple]
    | listV xs =>
      have helem : ∀ x ∈ xs, ∀ u, x.equals u = .ok true ↔ x = u := by
        intro x hx u
        have h1 : sizeOf x < sizeOf xs := List.sizeOf_lt_of_mem hx
        have h2 : sizeOf (SVal.listV xs) = 1 + sizeOf xs := by simp
        exact ih (sizeOf x) (by omega) x u (Nat.le_refl _)
      cases w with
      | listV ys =>
        have hstep : SVal.equals (.listV xs) (.listV ys) =
            equalsSlice xs ys := by
          simp [SVal.equals]
        rw [hstep, equalsSlice_true_iff xs helem ys]
        simp
      | int a => simp [SVal.equals]
      | str s => simp [SVal.equals]
      | tup ys => simp [SVal.equals]

/-- `Value::equals` returns `true` exactly on equal values. -/
lemma equals_true_iff_eq (v w : SVal) :
    SVal.equals v w = .ok true ↔ v = w :=
  equals_true_iff_eq_aux (sizeOf v) v w (Nat.le_refl _)

/-- Elementwise equality of value lists implies equality. -/
lemma forall₂_eq_imp : ∀ {xs ys : List SVal},
    List.Forall₂ (fun a b => a = b) xs ys → xs = ys := by
  intro xs ys h
  induction h with
  | nil => rfl
  | cons ha _ ih => rw [ha, ih]

/-- C9. Tuple equality returns `false` whenever the other value is not a
tuple; against another tuple it returns `true` exactly when the lengths
match and all element pairs are equal; the hash is consistent with
equality — two values that compare equal and hash successfully hash
equal — and tuples with the same elements in different orders are
unequal. -/
theorem tuple_equals_and_hash :
    (∀ (xs : List SVal) (w : SVal), fromValueTuple w = none →
       SVal.equals (.tup xs) w = .ok false) ∧
    (∀ xs ys : List SVal,
       SVal.equals (.tup xs) (.tup ys) = .ok true ↔
         (xs.length = ys.length ∧
          List.Forall₂ (fun x y => SVal.equals x y = .ok true) xs ys)) ∧
    (∀ (v w : SVal) (h1 h2 : Nat),
       SVal.equals v w = .ok true →
       SVal.getHash v = .ok h1 → SVal.getHash w = .ok h2 → h1 = h2) ∧
    SVal.equals (.tup [.int 1, .int 2]) (.tup [.int 2, .int 1]) =
      .ok false := by
  refine ⟨?_, ?_, ?_, ?_⟩
  · intro xs w hw
    have hstep : SVal.equals (.tup xs) w = tupleEquals xs w := by
      simp [SVal.equals]
    rw [hstep]
    unfold tupleEquals
    rw [hw]
  · intro xs ys
    rw [equals_true_iff_eq]
    simp only [SVal.tup.injEq]
    constructor
    · rintro rfl
      exact ⟨rfl, List.forall₂_same.mpr
        fun x _ => (equals_true_iff_eq x x).mpr rfl⟩
    · rintro ⟨-, hpairs⟩
      exact forall₂_eq_imp
        (hpairs.imp fun {a b} h => (equals_true_iff_eq a b).mp h)
  · intro v w h1 h2 heq hv hw
    have hvw : v = w := (equals_true_iff_eq v w).mp heq
    subst hvw
    rw [hv] at hw
    injection hw
  · simp [SVal.equals, tupleEquals, fromValueTuple, equalsSlice, equalsElems]

/-- Witness for C9: a tuple never equals an int; `(1,)` equals `(1,)`;
and two equal singleton tuples with successful hashes hash equal. -/
theorem tuple_equals_and_hash_witness :
    SVal.equals (.tup [.int 1]) (.int 5) = .ok false ∧
    SVal.equals (.tup [.int 1]) (.tup [.int 1]) = .ok true ∧
    (4 : Nat) = 4 :=
  ⟨tuple_equals_and_hash.1 [.int 1] (.int 5) rfl,
   (tuple_equals_and_hash.2.1 [.int 1] [.int 1]).mpr
     ⟨rfl, by simp [SVal.equals]⟩,
   tuple_equals_and_hash.2.2.1 (.tup [.int 3]) (.tup [.int 3]) 4 4
     (by simp [SVal.equals, tupleEquals, fromValueTuple, equalsSlice,
       equalsElems])
     (by simp [SVal.getHash, getHashFold, hashCombine])
     (by simp [SVal.getHash, getHashFold, hashCombine])⟩

/-- C10. Tuple repetition with any negative integer multiplier succeeds
and returns the empty tuple; an error occurs exactly when the multiplier
is not an integer, and that error is always *incorrect-parameter-type*. -/
theorem tuple_mul_neg_and_error (xs : List SVal) :
    (∀ l : Int, l < 0 → tupleMul xs (.int l) = .ok []) ∧
    (∀ v, (∃ e, tupleMul xs v = .error e) ↔ unpack_int v = none) ∧
    (∀ v e, tupleMul xs v = .error e → e = .incorrectParameterType) := by
  refine ⟨?_, ?_, ?_⟩
  · intro l hl
    have h0 : l.toNat = 0 := Int.toNat_of_nonpos (le_of_lt hl)
    simp [tupleMul, unpack_int, h0]
  · intro v
    cases v with
    | int i =>
      simp [tupleMul, unpack_int]
    | str s => simp [tupleMul, unpack_int]
    | tup ys => simp [tupleMul, unpack_int]
    | listV ys => simp [tupleMul, unpack_int]
  · intro v e
    cases v with
    | int i => simp [tupleMul, unpack_int]
    | str s =>
      simp only [tupleMul, unpack_int]
      intro h
      injection h with h2
      exact h2.symm
    | tup ys =>
      simp only [tupleMul, unpack_int]
      intro h
      injection h with h2
      exact h2.symm
    | listV ys =>
      simp only [tupleMul, unpack_int]
      intro h
      injection h with h2
      exact h2.symm

/-- Witness for C10 at a concrete tuple: multiplying by `-3` yields the
empty tuple, and a string multiplier fails. -/
theorem tuple_mul_neg_and_error_witness :
    tupleMul [SVal.int 7] (.int (-3)) = .ok [] ∧
    (∃ e, tupleMul [SVal.int 7] (.str "a") = .error e) :=
  ⟨(tuple_mul_neg_and_error [SVal.int 7]).1 (-3) (by decide),
   ((tuple_mul_neg_and_error [SVal.int 7]).2.1 (.str "a")).mpr rfl⟩
